import Mathlib

/-!
# wordCount_sycl: the Bloom filter and the word counts

A shallow embedding of the programs of the repository and the properties of them that the
specification states:

* the class `WordCountBloomFilter::BloomFilter` of `src/bloom.cpp` (the class body is repeated in
  `src/bloom_sycl.cpp`, except for the offloaded `insert` and `search`), the counting loop and the
  pipeline of its `main`;
* the offloaded `search` of `src/bloom_sycl.cpp` (namespace `Sycl`);
* the function template `loadContainer` of `bloom.cpp`, `bloom_sycl.cpp` and `wc_new.cpp`;
* `StringData`, `countWordOccurrences` and `main` of `src/wc_final.cpp` (namespace `WcFinal`);
* the single-hash `BloomFilter` and the counting kernel of `main` of `src/wc_new.cpp` (namespace
  `WcNew`);
* the member functions of the class of `bloom.cpp` once more, as functions on the object that
  return the object after the call (namespace `Stateful`), for what a call leaves unchanged.

The functions `specTokens` and `specProbability` follow the words of the specification; the
embedding of the source is compared with them.

Conventions of the embedding.

* `size_t` is the 64-bit unsigned type of the target: a `size_t` value is a `Nat`, and every
  `size_t` operation is reduced modulo `2 ^ 64` (`sizeAdd`, `sizeMul`, `toSizeT`).
* `int` is the 32-bit two's complement type: an `int` value is an `Int`, and a value stored into an
  `int` goes through `toInt`. Signed overflow of `numInserts++`, `collisions++` and
  `wordCount[word]++` is undefined in C++; the model takes the wrap-around the target performs,
  and every statement about the exact value of a counter carries the bound under which no
  overflow happens. The `fetch_add` of an atomic `int` wraps by definition.
* `x % numBits` divides by zero when `numBits == 0`; the functions that hash return `none` there.
* `std::bitset<N>` is the natural number whose binary digits are the bits (bit `pos` of the set is
  binary digit `pos`), the representation `bitset(unsigned long long)` and `to_ullong` use.
* `double` is replaced by exact rational arithmetic; rounding is not modelled.
* A `std::string` is a `String`, one `Char` for each `char`; an `unordered_map<string, int>` is
  the function from a key to the value of its entry.
* Storage is not modelled: the allocations of the bit set (`2 ^ 64 - 1` bits) and of the vector
  of `getHashes` are taken to succeed, and so is the choice of a device for a kernel.
* MD5, SHA256 and `std::hash<string>` are library functions: the two compositions that the class
  applies to a word are the fields of `HashLib`, and everything is proved for every `HashLib`.
* The work items of a kernel are run one after the other: the kernels modelled here only read
  shared data, assign to their own copies, or add to atomic counters.
-/

namespace WordCountBloomFilter

/-! ## Machine integers -/

/-- Number of values of `size_t` (64 bits). -/
def SIZE_T_MOD : Nat := 2 ^ 64

/-- Largest value of `int` (32 bits). -/
def INT_MAX : Int := 2 ^ 31 - 1

/-- Smallest value of `int` (32 bits). -/
def INT_MIN : Int := -(2 ^ 31)

/-- Conversion of an integer value to `size_t`: the value modulo `2 ^ 64`. -/
def toSizeT (z : Int) : Nat := (z % (2 ^ 64 : Int)).toNat

/-- Conversion of an integer value to `int`: the low 32 bits, read in two's complement. -/
def toInt (z : Int) : Int := (z + 2 ^ 31) % 2 ^ 32 - 2 ^ 31

/-- Addition of two `size_t` values. -/
def sizeAdd (a b : Nat) : Nat := (a + b) % SIZE_T_MOD

/-- Multiplication of two `size_t` values. -/
def sizeMul (a b : Nat) : Nat := (a * b) % SIZE_T_MOD

/-! ## Library parts -/

/-- The library hash pipelines of `hashF1` and `hashF2`: `strHashMD5 word` is
`strHash(str_md.substr(0, 6))` for the MD5 digest `str_md` of `word`, and `strHashSHA256 word` the
same for its SHA256 digest. `std::hash<string>` returns a `size_t`; the model reduces the value
modulo `2 ^ 64` where it is used. -/
structure HashLib where
  strHashMD5 : String → Nat
  strHashSHA256 : String → Nat

/-- The type `bitset<numeric_limits<size_t>::max()>`: `val` holds the bits, bit `pos` of the set
being binary digit `pos` of `val`. -/
structure Bitset where
  val : Nat
deriving DecidableEq, Repr

namespace Bitset

/-- The template argument `numeric_limits<size_t>::max()`, which is what `size()` returns. -/
def size (_b : Bitset) : Nat := 2 ^ 64 - 1

/-- The constructor `bitset(unsigned long long val)`: the first 64 bits are the binary digits of
`val`, every other bit is false. -/
def ofULL (val : Nat) : Bitset := ⟨val % 2 ^ 64⟩

/-- Reading `(*data)[pos]`. -/
def test (b : Bitset) (pos : Nat) : Bool := b.val.testBit pos

/-- The assignment `(*data)[pos] = true`. -/
def set (b : Bitset) (pos : Nat) : Bitset := ⟨b.val ||| 2 ^ pos⟩

end Bitset

/-! ## The class `BloomFilter` -/

/-- The data members of `BloomFilter`. -/
structure BloomFilter where
  numBits : Nat
  numHashFuncs : Nat
  data : Bitset
  numInserts : Int
  collisions : Int
deriving DecidableEq, Repr

namespace BloomFilter

/-- The values the member types can hold: `size_t` for `numBits` and `numHashFuncs`, `int` for the
two counters. -/
def InRange (bf : BloomFilter) : Prop :=
  bf.numBits < SIZE_T_MOD ∧ bf.numHashFuncs < SIZE_T_MOD ∧
  INT_MIN ≤ bf.numInserts ∧ bf.numInserts ≤ INT_MAX ∧
  INT_MIN ≤ bf.collisions ∧ bf.collisions ≤ INT_MAX

instance (bf : BloomFilter) : Decidable bf.InRange := by
  unfold InRange; infer_instance

/-- The constructor `BloomFilter(size_t numberOfBits, size_t numberOfHashFunctions)`. The member
`data` is `make_unique<bitset<...>>(numBits)`, which calls `bitset(unsigned long long)` with the
value `numBits`. (Named `new`, as the specification names it: inside the namespace the class name
is the type.) -/
def new (numberOfBits numberOfHashFunctions : Nat) : BloomFilter :=
  { numBits := numberOfBits
    numHashFuncs := numberOfHashFunctions
    numInserts := 0
    collisions := 0
    data := Bitset.ofULL numberOfBits }

/-- The method `hashF1`: `strHash(str_md.substr(0, 6)) % numBits`, returned as `int`. -/
def hashF1 (L : HashLib) (bf : BloomFilter) (word : String) : Option Int :=
  if bf.numBits = 0 then none
  else some (toInt ((L.strHashMD5 word % SIZE_T_MOD % bf.numBits : Nat) : Int))

/-- The method `hashF2`: as `hashF1`, over the SHA256 digest. -/
def hashF2 (L : HashLib) (bf : BloomFilter) (word : String) : Option Int :=
  if bf.numBits = 0 then none
  else some (toInt ((L.strHashSHA256 word % SIZE_T_MOD % bf.numBits : Nat) : Int))

/-- The value stored in `hashes[i]`: `(hash1 + i * hash2) % numBits`, where `i` is a `size_t`, so
the `int` operands are converted to `size_t` and the sum and product are `size_t` operations. -/
def hashAt (numBits : Nat) (hash1 hash2 : Int) (i : Nat) : Nat :=
  sizeAdd (toSizeT hash1) (sizeMul i (toSizeT hash2)) % numBits

/-- The method `getHashes`: the vector of `numHashFuncs` positions. -/
def getHashes (L : HashLib) (bf : BloomFilter) (word : String) : Option (List Nat) :=
  match bf.hashF1 L word, bf.hashF2 L word with
  | some hash1, some hash2 =>
      some ((List.range bf.numHashFuncs).map (hashAt bf.numBits hash1 hash2))
  | _, _ => none

/-- The loop of `insert` over `hashes`, on the pair of `data` and `collisions`. -/
def insertLoop : List Nat → Bitset → Int → Bitset × Int
  | [], data, collisions => (data, collisions)
  | hash :: hashes, data, collisions =>
      insertLoop hashes (data.set hash)
        (if data.test hash then toInt (collisions + 1) else collisions)

/-- The method `insert`. -/
def insert (L : HashLib) (bf : BloomFilter) (element : String) : Option BloomFilter :=
  match bf.getHashes L element with
  | none => none
  | some hashes =>
      let r := insertLoop hashes bf.data bf.collisions
      some { bf with data := r.1, collisions := r.2, numInserts := toInt (bf.numInserts + 1) }

/-- The value `prob` of `search`:
`pow(1.0 - pow(1.0 - 1.0 / numBits, numHashFuncs * numInserts), numHashFuncs)`, in exact
arithmetic. The product `numHashFuncs * numInserts` is a `size_t` product. -/
def prob (bf : BloomFilter) : ℚ :=
  (1 - (1 - 1 / (bf.numBits : ℚ)) ^ sizeMul bf.numHashFuncs (toSizeT bf.numInserts))
    ^ bf.numHashFuncs

/-- The loop of `search` over `hashes`: `true` when the loop reaches its end, `false` when it
leaves through `return -1.0`. -/
def searchLoop (data : Bitset) : List Nat → Bool
  | [] => true
  | hash :: hashes => if !data.test hash then false else searchLoop data hashes

/-- The method `search`; the result `-1` is the `-1.0` of the source. -/
def search (L : HashLib) (bf : BloomFilter) (element : String) : Option ℚ :=
  match bf.getHashes L element with
  | none => none
  | some hashes => if searchLoop bf.data hashes then some bf.prob else some (-1)

/-- The method `get_collisions`. -/
def get_collisions (bf : BloomFilter) : Int := bf.collisions

/-- The three operations a caller has on a constructed filter. -/
inductive Op where
  | insert (element : String)
  | search (element : String)
  | get_collisions
deriving DecidableEq, Repr

/-- The filter after one operation. `search` and `get_collisions` assign to no member, so they
hand the filter on as it is; `search` and `insert` hash first, and have no result when the
hashing has none. -/
def step (L : HashLib) (bf : BloomFilter) : Op → Option BloomFilter
  | Op.insert element => bf.insert L element
  | Op.search element => (bf.search L element).map (fun _ => bf)
  | Op.get_collisions => some bf

/-- The insert phase of `main`: `for (const auto &word : dictionary) bf.insert(word)`. -/
def insertAll (L : HashLib) : BloomFilter → List String → Option BloomFilter
  | bf, [] => some bf
  | bf, word :: words =>
      match bf.insert L word with
      | none => none
      | some bf1 => insertAll L bf1 words

/-- The number of positions of `hashes`, taken in order and with multiplicity, whose bit is
already true when the position is processed, each processed position being set before the next
one is looked at. -/
def alreadySet : Bitset → List Nat → Nat
  | _, [] => 0
  | data, hash :: hashes =>
      (if data.test hash then 1 else 0) + alreadySet (data.set hash) hashes

end BloomFilter

/-- The check `CLI::PositiveNumber` that `main` puts on the options `--bits` and `--hashf`. -/
def positiveNumber (z : Int) : Bool := decide (0 < z)

/-- The step of `main` from the values of the options `--bits` and `--hashf` to the statement
`BloomFilter bf(numberOfBits, numberOfHashFunctions)`: `CLI11_PARSE` leaves `main` when one of
the two `int` values fails its `CLI::PositiveNumber` check (the result `none`); otherwise the two
values are converted to `size_t` for the constructor. This is one of the ways in which `main`
ends before the construction; the others (arguments that do not parse, `--help`, a word list that
`loadContainer` cannot open) are not part of this function, which starts from option values that
parsed and files that opened. -/
def mainFilter (numberOfBits numberOfHashFunctions : Int) : Option BloomFilter :=
  if positiveNumber numberOfBits && positiveNumber numberOfHashFunctions then
    some (BloomFilter.new (toSizeT numberOfBits) (toSizeT numberOfHashFunctions))
  else none

/-- A concrete pair of hash functions on which the model can be evaluated (the length of the word
and a multiple of it); it stands for no particular library. -/
def sampleHashLib : HashLib :=
  { strHashMD5 := fun word => word.length
    strHashSHA256 := fun word => 3 * word.length + 1 }

/-! ## Loading the word lists

A `std::string` is a Lean `String`, one `Char` for each `char`. -/

/-- The function `::toupper` in the "C" locale, the locale of a program that never calls
`setlocale`: the letters `a` to `z` (codes 97 to 122) go to `A` to `Z`, every other character
stays. -/
def toupper (c : Char) : Char :=
  if 97 ≤ c.toNat ∧ c.toNat ≤ 122 then Char.ofNat (c.toNat - 32) else c

/-- The characters of the argument of `find_first_not_of` in `loadContainer`. -/
def upperLetters : List Char := "ABCDEFGHIJKLMNOPQRSTUVWXYZ".toList

/-- The statement `transform(line.begin(), line.end(), line.begin(), ::toupper)`. -/
def upperCase (line : String) : String := String.mk (line.toList.map toupper)

/-- The test `line.find_first_not_of("ABCDEFGHIJKLMNOPQRSTUVWXYZ") == string::npos`. -/
def allUpperLetters (line : String) : Bool := line.toList.all (fun c => upperLetters.contains c)

/-- The condition of the `if` in `loadContainer`, on the upper-cased line. -/
def keepsLine (minimumWordLength : Nat) (line : String) : Bool :=
  decide (line.length ≥ minimumWordLength) && allUpperLetters line

/-- The `while (getline(inputFile, line))` loop of `loadContainer` for a `vector<string>`, where
`data.insert(data.end(), line)` appends. -/
def loadLines (minimumWordLength : Nat) : List String → List String → List String
  | [], data => data
  | line :: lines, data =>
      loadLines minimumWordLength lines
        (if keepsLine minimumWordLength (upperCase line) then data ++ [upperCase line] else data)

/-- The function template `loadContainer` of `bloom.cpp`, `bloom_sycl.cpp` and `wc_new.cpp`, for
a `vector<string>`. `inputFile` stands for the file at `path`: its lines, or `none` when it cannot
be opened. The result is the container after the call, and `none` when the function ends the
program with `exit(EXIT_FAILURE)`. -/
def loadContainer (inputFile : Option (List String)) (minimumWordLength : Nat)
    (data : List String) : Option (List String) :=
  match inputFile with
  | none => none
  | some lines => some (loadLines minimumWordLength lines data)

/-! ## Counting the words in `bloom.cpp` -/

/-- The type `unordered_map<string, int>` of `wordCount`: the `int` stored for a key, and `none`
for a key that has no entry. -/
abbrev WordCount := String → Option Int

/-- The map after `unordered_map<string, int> wordCount;`. -/
def WordCount.empty : WordCount := fun _ => none

/-- The statement `wordCount[word]++`: `operator[]` makes an entry with the value 0 when the key
has none, and the `int` of the entry is incremented. -/
def WordCount.increment (wordCount : WordCount) (word : String) : WordCount :=
  fun key => if key = word then some (toInt ((wordCount key).getD 0 + 1)) else wordCount key

/-- The counting loop of `main` in `bloom.cpp`:
`for (const auto &word : hamletVector) if (bf.search(word) != -1.0) wordCount[word]++`. -/
def countLoop (L : HashLib) (bf : BloomFilter) : List String → WordCount → Option WordCount
  | [], wordCount => some wordCount
  | word :: hamletVector, wordCount =>
      match bf.search L word with
      | none => none
      | some r =>
          countLoop L bf hamletVector
            (if r ≠ -1 then WordCount.increment wordCount word else wordCount)

/-- The function `main` of `bloom.cpp` from the parsed options and the loaded containers to the
map it prints: the construction of the filter, the insert phase over `dictionary` (the words of
the `set<string>` in the order of its iteration) and the counting loop over `hamletVector`. -/
def mainWordCount (L : HashLib) (numberOfBits numberOfHashFunctions : Int)
    (dictionary hamletVector : List String) : Option WordCount :=
  match mainFilter numberOfBits numberOfHashFunctions with
  | none => none
  | some bf =>
      match BloomFilter.insertAll L bf dictionary with
      | none => none
      | some bf1 => countLoop L bf1 hamletVector WordCount.empty

/-- A sequence of operations on a filter, one after the other. -/
def BloomFilter.runOps (L : HashLib) : BloomFilter → List BloomFilter.Op → Option BloomFilter
  | bf, [] => some bf
  | bf, op :: ops =>
      match bf.step L op with
      | none => none
      | some bf1 => BloomFilter.runOps L bf1 ops

/-- The operation is a call of `insert`. -/
def BloomFilter.Op.isInsert : BloomFilter.Op → Bool
  | BloomFilter.Op.insert _ => true
  | _ => false

/-- The positions at which the loop of `insert` reaches into `*data`, in order: each `hash` once
in the condition of the `if` and once in the assignment. -/
def BloomFilter.insertAccesses : List Nat → List Nat
  | [] => []
  | hash :: hashes => hash :: hash :: BloomFilter.insertAccesses hashes

/-- The positions at which the loop of `search` reaches into `*data`, in order: the loop stops
behind the first position whose bit is false. -/
def BloomFilter.searchAccesses (data : Bitset) : List Nat → List Nat
  | [] => []
  | hash :: hashes =>
      hash :: (if !data.test hash then [] else BloomFilter.searchAccesses data hashes)

/-! ## The offloaded `search` of `bloom_sycl.cpp` -/

namespace Sycl

/-- One work item of `search_kernel`. The kernel is the function object
`[=](id<1> idx) mutable { ... }`: it captures by copy, so the `all_found` it assigns to is the
member of the function object, a copy of the variable of `search`. The result is the value of
that copy after the work item `idx`. -/
def search_kernel (data : Bitset) (hashes : List Nat) (all_found : Bool) (idx : Nat) : Bool :=
  if !data.test (hashes.getD idx 0) then false else all_found

/-- The method `search` of `bloom_sycl.cpp`. The buffer `data_buffer` holds a copy of the bits.
The work items run on copies of `all_found`; the variable `all_found` of `search`, which decides
about `return -1.0`, is assigned only where it is declared, `bool all_found = true`. -/
def search (L : HashLib) (bf : BloomFilter) (element : String) : Option ℚ :=
  match bf.getHashes L element with
  | none => none
  | some hashes =>
      let all_found := true
      let _copies := (List.range hashes.length).map (search_kernel bf.data hashes all_found)
      if !all_found then some (-1) else some bf.prob

end Sycl

/-- The member function `count()` of the bit set: the number of bits that are true. Every true
bit of `val` is at a position below `val + 1`, so the positions below it are all that need to be
looked at. -/
def Bitset.count (b : Bitset) : Nat :=
  (List.range (b.val + 1)).countP (fun j => b.val.testBit j)

/-! ## The word count of `wc_final.cpp` -/

namespace WcFinal

/-- The character `'\0'`. -/
def NUL : Char := Char.ofNat 0

/-- The `n` characters that `std::strncpy(dest, src, n)` writes to `dest`, for the characters
`src` of a `std::string` handed over as `c_str()`: the characters of `src` up to `n` of them,
ending before the first `'\0'` (the one of `c_str()` when `src` holds none), and `'\0'` for the
rest. -/
def strncpy : List Char → Nat → List Char
  | _, 0 => []
  | [], n + 1 => List.replicate (n + 1) NUL
  | c :: cs, n + 1 => if c = NUL then List.replicate (n + 1) NUL else c :: strncpy cs n

/-- The test `std::strncmp(a, b, n) == 0` for two arrays given by their characters: the arrays
agree up to the first `'\0'` or up to `n` characters. Both arrays hold at least `n` characters
where the function is used; the last case stands for arrays that end before. -/
def strncmpEq : List Char → List Char → Nat → Bool
  | _, _, 0 => true
  | a :: as, b :: bs, n + 1 =>
      if a ≠ b then false else if a = NUL then true else strncmpEq as bs n
  | _, _, _ + 1 => false

/-- The struct `StringData`: the 32 characters of `char data[32]`. -/
structure StringData where
  data : List Char
deriving DecidableEq, Repr

/-- The constructor `StringData(const std::string &str)`:
`std::strncpy(data, str.c_str(), sizeof(data)); data[sizeof(data) - 1] = '\0'`. -/
def StringData.ofString (str : String) : StringData :=
  ⟨(strncpy str.toList 32).set 31 NUL⟩

/-- The member `operator==`: `std::strncmp(data, other.data, sizeof(data)) == 0`. -/
def StringData.eq (a other : StringData) : Bool := strncmpEq a.data other.data 32

/-- The conversion `std::string(uniqueWordsData[i].data)` of the array to a string: the
characters before the first `'\0'`. -/
def StringData.toString (a : StringData) : String := String.mk (a.data.takeWhile (· ≠ NUL))

/-- One work item of the kernel of `countWordOccurrences`, for the input word `word`: the loop
over `j` adds 1 to `wordCounts[j]` where `uniqueWords[j] == word`. The addition is the
`fetch_add` of an atomic `int`, which wraps. -/
def workItem (uniqueWords : List StringData) (wordCounts : List Int) (word : StringData) :
    List Int :=
  List.zipWith (fun u c => if u.eq word then toInt (c + 1) else c) uniqueWords wordCounts

/-- The function `countWordOccurrences`: the vector `wordCounts` after the kernel has run for
every input word. The work items only add to atomic counters; the model runs them in the order
of `words`. -/
def countWordOccurrences (words uniqueWords : List StringData) (wordCounts : List Int) :
    List Int :=
  words.foldl (workItem uniqueWords) wordCounts

/-- The function `main` up to the vector `wordCountPairs` before it is sorted for printing.
`targetWords` is what `readWordsFromFile` returned, and `wordSet` holds the elements of the
`unordered_set` in the order of its iteration. -/
def mainPairs (targetWords wordSet : List String) : List (String × Int) :=
  let targetWordsData := targetWords.map StringData.ofString
  let uniqueWordsData := wordSet.map StringData.ofString
  let wordCounts :=
    countWordOccurrences targetWordsData uniqueWordsData (List.replicate uniqueWordsData.length 0)
  List.zipWith (fun u c => (u.toString, c)) uniqueWordsData wordCounts

/-- The part of a token that `StringData` keeps: its first 31 characters, ending before a
`'\0'`. -/
def kept (str : String) : List Char := (str.toList.takeWhile (· ≠ NUL)).take 31

end WcFinal

/-! ## The single-hash filter and the counting kernel of `wc_new.cpp` -/

namespace WcNew

/-- The value of a `char` as the `int` it is promoted to; `char` is the signed 8-bit type of the
target. -/
def charValue (c : Char) : Int := ((c.toNat : Int) + 128) % 256 - 128

/-- The class `BloomFilter` of `wc_new.cpp`: the members `size` and `bit_vector`. -/
structure BloomFilter where
  size : Nat
  bit_vector : List Bool
deriving DecidableEq, Repr

/-- The constructor `BloomFilter(size_t size) : size(size), bit_vector(size)`: `size` bits, all
false. -/
def BloomFilter.new (size : Nat) : BloomFilter :=
  { size := size, bit_vector := List.replicate size false }

/-- The method `hash_function` of the class: `hash = hash * 31 + c` over the characters, in
`size_t` arithmetic, from 0. -/
def BloomFilter.hash_function (str : String) : Nat :=
  str.toList.foldl (fun hash c => sizeAdd (sizeMul hash 31) (toSizeT (charValue c))) 0

/-- The method `insert`: `index = hash_function(word) % size; bit_vector[index] = true`. The
modulo has no result when `size` is 0. -/
def BloomFilter.insert (bf : BloomFilter) (word : String) : Option BloomFilter :=
  if bf.size = 0 then none
  else
    some { bf with
      bit_vector := bf.bit_vector.set (BloomFilter.hash_function word % bf.size) true }

/-- The method `get_buffer`: `buffer<bool, 1>(bit_vector.data(), range<1>(bit_vector.size()))`.
The member `bit_vector` is a `vector<bool>`, the specialisation that packs its bits: it has no
`data()` that gives a pointer to `bool` elements, so the expression has no meaning and the method
hands over no buffer, whatever the object holds. As for the modulo by zero, what has no meaning
is the result `none`. -/
def BloomFilter.get_buffer (_bf : BloomFilter) : Option (List Bool) := none

/-- The insert phase of `main`: `for (const auto &word : dictionary) bf.insert(word)`. -/
def insertAll : BloomFilter → List String → Option BloomFilter
  | bf, [] => some bf
  | bf, word :: words =>
      match bf.insert word with
      | none => none
      | some bf1 => insertAll bf1 words

/-- The lambda `hash_function` that `main` defines for the kernel. -/
def hash_function (str : String) : Nat :=
  str.toList.foldl (fun hash c => sizeAdd (sizeMul hash 31) (toSizeT (charValue c))) 0

/-- The work item `i` of `word_count_kernel`: the value of `count[i]` after it. The index is
`hash_function(word) % bfBuf.get_count()`, and `get_count()` is the number of elements of the
buffer; the modulo has no result when that number is 0. -/
def word_count_kernel (hamletVector : List String) (bfBuf : List Bool) (count : List Int)
    (i : Nat) : Option Int :=
  if bfBuf.length = 0 then none
  else
    some (if bfBuf.getD (hash_function (hamletVector.getD i "") % bfBuf.length) false
      then toInt (count.getD i 0 + 1) else count.getD i 0)

/-- The kernel over the work items `items`: the values of `count` at these items, each work item
assigning to its own element only. -/
def runKernel (hamletVector : List String) (bfBuf : List Bool) (count : List Int) :
    List Nat → Option (List Int)
  | [] => some []
  | i :: items =>
      match word_count_kernel hamletVector bfBuf count i,
        runKernel hamletVector bfBuf count items with
      | some c, some cs => some (c :: cs)
      | _, _ => none

/-- The function `main` from the two loaded containers to the content of `countBuf` after
`q.wait()`, with the size of the filter as a parameter: the insert phase, the statement
`buffer<bool, 1> bfBuf = bf.get_buffer()`, and the kernel over `bfBuf` and the zero-initialised
`countBuf`, one work item for each token. -/
def wordCounts (size : Nat) (dictionary hamletVector : List String) : Option (List Int) :=
  match insertAll (BloomFilter.new size) dictionary with
  | none => none
  | some bf =>
      match bf.get_buffer with
      | none => none
      | some bfBuf =>
          runKernel hamletVector bfBuf (List.replicate hamletVector.length 0)
            (List.range hamletVector.length)

end WcNew

/-! ## Functions of the specification

Two functions that follow the words of the specification, not the source; the embedding of the
source is compared with them. -/

/-- The tokens the specification asks `loadContainer` to produce from the lines of a file, in its
words: the upper-cased lines whose length is at least the minimum and whose characters are all
in `A` to `Z`, in input order. It is written with `String.toUpper`, `String.length` and
`Char.isUpper` of the library, not with the functions that embed the source, and it is what the
embedding of `loadContainer` is compared with. -/
def specTokens (minimumWordLength : Nat) (lines : List String) : List String :=
  (lines.map String.toUpper).filter
    (fun token => decide (minimumWordLength ≤ token.length) && token.all Char.isUpper)

/-- The probability of the specification, in its words:
`p = (1 - (1 - 1/numBits)^(numHashFuncs * numInserts)) ^ numHashFuncs`, in exact rational
arithmetic over the natural numbers, where no product wraps. It is what `prob`, the embedding of
the expression in `search`, is compared with. -/
def specProbability (numBits numHashFuncs numInserts : Nat) : ℚ :=
  (1 - (1 - 1 / (numBits : ℚ)) ^ (numHashFuncs * numInserts)) ^ numHashFuncs

/-! ## The member functions as functions on the object

No member function of `BloomFilter` is declared `const`: each of them may assign to the data
members. In this section a member function is a function from the object before the call to its
result and the object after the call, and the object is handed on from statement to statement.
What a call leaves unchanged is then a property of the body of the function, not of its type. -/

namespace Stateful

/-- The expression `(*data)[hash]` read as a `bool`: the bit, and the object after the read. -/
def readBit (hash : Nat) (bf : BloomFilter) : Bool × BloomFilter := (bf.data.test hash, bf)

/-- The statement `(*data)[hash] = true`. -/
def writeBit (hash : Nat) (bf : BloomFilter) : BloomFilter :=
  { bf with data := bf.data.set hash }

/-- The method `hashF1`: its `int`, and the object after the call. -/
def hashF1 (L : HashLib) (word : String) (bf : BloomFilter) : Option (Int × BloomFilter) :=
  if bf.numBits = 0 then none
  else some (toInt ((L.strHashMD5 word % SIZE_T_MOD % bf.numBits : Nat) : Int), bf)

/-- The method `hashF2`: its `int`, and the object after the call. -/
def hashF2 (L : HashLib) (word : String) (bf : BloomFilter) : Option (Int × BloomFilter) :=
  if bf.numBits = 0 then none
  else some (toInt ((L.strHashSHA256 word % SIZE_T_MOD % bf.numBits : Nat) : Int), bf)

/-- The method `getHashes`: the call of `hashF1`, then the call of `hashF2` on the object the
first call left, then the loop, which reads `numHashFuncs` and `numBits`. -/
def getHashes (L : HashLib) (word : String) (bf : BloomFilter) :
    Option (List Nat × BloomFilter) :=
  match hashF1 L word bf with
  | none => none
  | some (hash1, bf1) =>
      match hashF2 L word bf1 with
      | none => none
      | some (hash2, bf2) =>
          some ((List.range bf2.numHashFuncs).map
            (BloomFilter.hashAt bf2.numBits hash1 hash2), bf2)

/-- The loop of `insert`: for each `hash` the read of the bit, `collisions++` when it is true,
and the assignment to the bit. -/
def insertLoop : List Nat → BloomFilter → BloomFilter
  | [], bf => bf
  | hash :: hashes, bf =>
      match readBit hash bf with
      | (true, bf1) =>
          insertLoop hashes (writeBit hash { bf1 with collisions := toInt (bf1.collisions + 1) })
      | (false, bf1) => insertLoop hashes (writeBit hash bf1)

/-- The method `insert`. -/
def insert (L : HashLib) (element : String) (bf : BloomFilter) : Option (Unit × BloomFilter) :=
  match getHashes L element bf with
  | none => none
  | some (hashes, bf1) =>
      match insertLoop hashes bf1 with
      | bf2 => some ((), { bf2 with numInserts := toInt (bf2.numInserts + 1) })

/-- The loop of `search`: `false` when it leaves through `return -1.0`, `true` when it reaches
its end, and the object after the reads. -/
def searchLoop : List Nat → BloomFilter → Bool × BloomFilter
  | [], bf => (true, bf)
  | hash :: hashes, bf =>
      match readBit hash bf with
      | (false, bf1) => (false, bf1)
      | (true, bf1) => searchLoop hashes bf1

/-- The method `search`: the call of `getHashes`, the loop on the object that call left, and the
expression `prob` over the members of the object the loop left. -/
def search (L : HashLib) (element : String) (bf : BloomFilter) : Option (ℚ × BloomFilter) :=
  match getHashes L element bf with
  | none => none
  | some (hashes, bf1) =>
      match searchLoop hashes bf1 with
      | (false, bf2) => some (-1, bf2)
      | (true, bf2) => some (bf2.prob, bf2)

/-- The method `get_collisions`: `return collisions;`. -/
def get_collisions (bf : BloomFilter) : Int × BloomFilter := (bf.collisions, bf)

/-- The object after one call. -/
def step (L : HashLib) (bf : BloomFilter) : BloomFilter.Op → Option BloomFilter
  | BloomFilter.Op.insert element => (insert L element bf).map Prod.snd
  | BloomFilter.Op.search element => (search L element bf).map Prod.snd
  | BloomFilter.Op.get_collisions => some (get_collisions bf).2

/-- The object after a sequence of calls, one after the other. -/
def runOps (L : HashLib) : BloomFilter → List BloomFilter.Op → Option BloomFilter
  | bf, [] => some bf
  | bf, op :: ops =>
      match step L bf op with
      | none => none
      | some bf1 => runOps L bf1 ops

end Stateful

/-! ## Machine integers: facts -/

theorem toInt_of_range (z : Int) (h1 : INT_MIN ≤ z) (h2 : z ≤ INT_MAX) : toInt z = z := by
  unfold toInt; unfold INT_MIN at h1; unfold INT_MAX at h2
  omega

theorem toInt_range (z : Int) : INT_MIN ≤ toInt z ∧ toInt z ≤ INT_MAX := by
  unfold toInt INT_MIN INT_MAX
  omega

theorem toInt_toInt_add (a b : Int) : toInt (toInt a + b) = toInt (a + b) := by
  unfold toInt
  omega

theorem toSizeT_natCast (n : Nat) : toSizeT (n : Int) = n % 2 ^ 64 := by
  unfold toSizeT
  omega

theorem toSizeT_lt (z : Int) : toSizeT z < SIZE_T_MOD := by
  unfold toSizeT SIZE_T_MOD
  omega

/-! ## The bit set: facts -/

namespace Bitset

theorem test_set (b : Bitset) (pos j : Nat) :
    (b.set pos).test j = (b.test j || decide (pos = j)) := by
  simp [test, set, Nat.testBit_or, Nat.testBit_two_pow]

theorem test_set_self (b : Bitset) (pos : Nat) : (b.set pos).test pos = true := by
  simp [test_set]

theorem test_set_of_test (b : Bitset) (pos j : Nat) (h : b.test j = true) :
    (b.set pos).test j = true := by
  simp [test_set, h]

theorem ext_test {a b : Bitset} (h : ∀ j, a.test j = b.test j) : a = b := by
  cases a with
  | mk x =>
    cases b with
    | mk y =>
      have : x = y := Nat.eq_of_testBit_eq h
      rw [this]

theorem set_of_test (b : Bitset) (pos : Nat) (h : b.test pos = true) : b.set pos = b := by
  apply ext_test
  intro j
  rw [test_set]
  by_cases hj : pos = j
  · subst hj; simp [h]
  · simp [hj]

end Bitset

/-! ## Hash derivation: facts -/

namespace BloomFilter

/-- The `int` that `hashF1` returns when `numBits` is positive. -/
theorem hashF1_pos (L : HashLib) (bf : BloomFilter) (word : String) (hb : 0 < bf.numBits) :
    bf.hashF1 L word
      = some (toInt ((L.strHashMD5 word % SIZE_T_MOD % bf.numBits : Nat) : Int)) := by
  unfold hashF1
  rw [if_neg (by omega)]

/-- The `int` that `hashF2` returns when `numBits` is positive. -/
theorem hashF2_pos (L : HashLib) (bf : BloomFilter) (word : String) (hb : 0 < bf.numBits) :
    bf.hashF2 L word
      = some (toInt ((L.strHashSHA256 word % SIZE_T_MOD % bf.numBits : Nat) : Int)) := by
  unfold hashF2
  rw [if_neg (by omega)]

/-- With `numBits` positive `getHashes` returns its vector. -/
theorem getHashes_pos (L : HashLib) (bf : BloomFilter) (word : String) (hb : 0 < bf.numBits) :
    bf.getHashes L word
      = some ((List.range bf.numHashFuncs).map
          (hashAt bf.numBits
            (toInt ((L.strHashMD5 word % SIZE_T_MOD % bf.numBits : Nat) : Int))
            (toInt ((L.strHashSHA256 word % SIZE_T_MOD % bf.numBits : Nat) : Int)))) := by
  unfold getHashes
  rw [hashF1_pos L bf word hb, hashF2_pos L bf word hb]

/-- With `numBits` zero the hashing has no result. -/
theorem getHashes_zero (L : HashLib) (bf : BloomFilter) (word : String) (hb : bf.numBits = 0) :
    bf.getHashes L word = none := by
  unfold getHashes hashF1
  rw [if_pos hb]

/-- The vector depends on the filter through `numBits` and `numHashFuncs` only. -/
theorem getHashes_congr (L : HashLib) (a b : BloomFilter) (word : String)
    (h1 : a.numBits = b.numBits) (h2 : a.numHashFuncs = b.numHashFuncs) :
    a.getHashes L word = b.getHashes L word := by
  unfold getHashes hashF1 hashF2
  rw [h1, h2]

theorem getHashes_length (L : HashLib) (bf : BloomFilter) (word : String) (hashes : List Nat)
    (h : bf.getHashes L word = some hashes) : hashes.length = bf.numHashFuncs := by
  by_cases hb : bf.numBits = 0
  · rw [getHashes_zero L bf word hb] at h; cases h
  · rw [getHashes_pos L bf word (by omega)] at h
    cases h
    simp

theorem hashAt_lt (numBits : Nat) (hash1 hash2 : Int) (i : Nat) (hb : 0 < numBits) :
    hashAt numBits hash1 hash2 i < numBits := by
  unfold hashAt
  exact Nat.mod_lt _ hb

theorem getHashes_lt (L : HashLib) (bf : BloomFilter) (word : String) (hashes : List Nat)
    (h : bf.getHashes L word = some hashes) : ∀ pos ∈ hashes, pos < bf.numBits := by
  by_cases hb : bf.numBits = 0
  · rw [getHashes_zero L bf word hb] at h; cases h
  · rw [getHashes_pos L bf word (by omega)] at h
    cases h
    intro pos hpos
    rw [List.mem_map] at hpos
    obtain ⟨i, _, hi⟩ := hpos
    rw [← hi]
    exact hashAt_lt _ _ _ _ (by omega)

/-- When the two hashes fit an `int` and the index is at most `2 ^ 33`, the truncation to `int`
and the `size_t` arithmetic of `hashAt` change nothing. -/
theorem hashAt_small (numBits a c i : Nat) (ha : a < 2 ^ 31) (hc : c < 2 ^ 31)
    (hi : i ≤ 2 ^ 33) :
    hashAt numBits (toInt (a : Int)) (toInt (c : Int)) i = (a + i * c) % numBits := by
  have ea : toInt (a : Int) = (a : Int) :=
    toInt_of_range (a : Int) (by unfold INT_MIN; omega) (by unfold INT_MAX; omega)
  have ec : toInt (c : Int) = (c : Int) :=
    toInt_of_range (c : Int) (by unfold INT_MIN; omega) (by unfold INT_MAX; omega)
  have sa : toSizeT (a : Int) = a := by
    rw [toSizeT_natCast]; exact Nat.mod_eq_of_lt (by omega)
  have sc : toSizeT (c : Int) = c := by
    rw [toSizeT_natCast]; exact Nat.mod_eq_of_lt (by omega)
  have hprod : i * c ≤ 2 ^ 33 * (2 ^ 31 - 1) := Nat.mul_le_mul hi (by omega)
  have e1 : i * c % 2 ^ 64 = i * c := Nat.mod_eq_of_lt (by omega)
  have e2 : (a + i * c) % 2 ^ 64 = a + i * c := Nat.mod_eq_of_lt (by omega)
  unfold hashAt sizeAdd sizeMul SIZE_T_MOD
  rw [ea, ec, sa, sc, e1, e2]

/-! ## The loops of `insert` and `search`: facts -/

theorem insertLoop_test (hashes : List Nat) (data : Bitset) (collisions : Int) (j : Nat) :
    (insertLoop hashes data collisions).1.test j = (data.test j || decide (j ∈ hashes)) := by
  induction hashes generalizing data collisions with
  | nil => simp [insertLoop]
  | cons hash rest ih =>
    rw [insertLoop, ih, Bitset.test_set]
    by_cases hj : hash = j
    · subst hj; simp
    · have hj2 : ¬ j = hash := fun e => hj e.symm
      simp [hj, hj2]

theorem insertLoop_collisions (hashes : List Nat) (data : Bitset) (collisions : Int) :
    (insertLoop hashes data collisions).2 = toInt (toInt collisions + alreadySet data hashes)
      ∨ (alreadySet data hashes = 0 ∧ (insertLoop hashes data collisions).2 = collisions) := by
  induction hashes generalizing data collisions with
  | nil => right; simp [insertLoop, alreadySet]
  | cons hash rest ih =>
    rw [insertLoop, alreadySet]
    by_cases ht : data.test hash = true
    · left
      simp only [ht, if_true]
      rcases ih (data.set hash) (toInt (collisions + 1)) with h | ⟨h0, h⟩
      · rw [h, toInt_toInt_add, toInt_toInt_add, toInt_toInt_add]
        congr 1
        push_cast
        ring
      · rw [h, h0, toInt_toInt_add]
        simp
    · have hf : data.test hash = false := by simpa using ht
      simp only [hf, Bool.false_eq_true, if_false, Nat.zero_add]
      exact ih (data.set hash) collisions

theorem searchLoop_eq_true (data : Bitset) (hashes : List Nat) :
    searchLoop data hashes = true ↔ ∀ pos ∈ hashes, data.test pos = true := by
  induction hashes with
  | nil => simp [searchLoop]
  | cons hash rest ih =>
    rw [searchLoop]
    by_cases ht : data.test hash = true
    · simp [ht, ih]
    · have hf : data.test hash = false := by simpa using ht
      simp [hf]

theorem insertLoop_collisions_wrap (hashes : List Nat) (data : Bitset) (collisions : Int)
    (h1 : INT_MIN ≤ collisions) (h2 : collisions ≤ INT_MAX) :
    (insertLoop hashes data collisions).2 = toInt (collisions + alreadySet data hashes) := by
  rcases insertLoop_collisions hashes data collisions with h | ⟨h0, h⟩
  · rw [h, toInt_toInt_add]
  · rw [h, h0]
    simp [toInt_of_range collisions h1 h2]

theorem alreadySet_le (data : Bitset) (hashes : List Nat) :
    alreadySet data hashes ≤ hashes.length := by
  induction hashes generalizing data with
  | nil => simp [alreadySet]
  | cons hash rest ih =>
    rw [alreadySet, List.length_cons]
    have := ih (data.set hash)
    split <;> omega

theorem alreadySet_of_all (data : Bitset) (hashes : List Nat)
    (h : ∀ pos ∈ hashes, data.test pos = true) : alreadySet data hashes = hashes.length := by
  induction hashes generalizing data with
  | nil => simp [alreadySet]
  | cons hash rest ih =>
    have hh : data.test hash = true := h hash (List.mem_cons_self _ _)
    rw [alreadySet, List.length_cons, Bitset.set_of_test data hash hh,
      ih data (fun pos hp => h pos (List.mem_cons_of_mem _ hp))]
    simp [hh]
    omega

/-! ## The probability: facts -/

theorem base_bounds (numBits : Nat) (hb : 0 < numBits) :
    (0 : ℚ) ≤ 1 - 1 / (numBits : ℚ) ∧ 1 - 1 / (numBits : ℚ) ≤ 1 := by
  have h1 : (1 : ℚ) ≤ (numBits : ℚ) := by exact_mod_cast hb
  have h2 : 1 / (numBits : ℚ) ≤ 1 := by
    rw [div_le_one (by linarith)]
    exact h1
  have h3 : (0 : ℚ) ≤ 1 / (numBits : ℚ) := by positivity
  constructor <;> linarith

theorem inner_bounds (numBits e : Nat) (hb : 0 < numBits) :
    (0 : ℚ) ≤ 1 - (1 - 1 / (numBits : ℚ)) ^ e ∧ 1 - (1 - 1 / (numBits : ℚ)) ^ e ≤ 1 := by
  obtain ⟨h0, h1⟩ := base_bounds numBits hb
  have h2 : (1 - 1 / (numBits : ℚ)) ^ e ≤ 1 := pow_le_one₀ h0 h1
  have h3 : (0 : ℚ) ≤ (1 - 1 / (numBits : ℚ)) ^ e := pow_nonneg h0 e
  constructor <;> linarith

theorem prob_bounds (bf : BloomFilter) (hb : 0 < bf.numBits) : 0 ≤ bf.prob ∧ bf.prob ≤ 1 := by
  unfold prob
  obtain ⟨h0, h1⟩ := inner_bounds bf.numBits
    (sizeMul bf.numHashFuncs (toSizeT bf.numInserts)) hb
  exact ⟨pow_nonneg h0 _, pow_le_one₀ h0 h1⟩

theorem prob_ne_absent (bf : BloomFilter) (hb : 0 < bf.numBits) : bf.prob ≠ -1 := by
  have := (prob_bounds bf hb).1
  intro h
  rw [h] at this
  norm_num at this

/-! ## `insert` and `search`: facts -/

theorem insert_pos (L : HashLib) (bf : BloomFilter) (element : String) (hashes : List Nat)
    (h : bf.getHashes L element = some hashes) :
    bf.insert L element
      = some { bf with
          data := (insertLoop hashes bf.data bf.collisions).1
          collisions := (insertLoop hashes bf.data bf.collisions).2
          numInserts := toInt (bf.numInserts + 1) } := by
  unfold insert
  rw [h]

theorem search_pos (L : HashLib) (bf : BloomFilter) (element : String) (hashes : List Nat)
    (h : bf.getHashes L element = some hashes) :
    bf.search L element = if searchLoop bf.data hashes then some bf.prob else some (-1) := by
  unfold search
  rw [h]

theorem getHashes_isSome (L : HashLib) (bf : BloomFilter) (word : String) (hb : 0 < bf.numBits) :
    ∃ hashes, bf.getHashes L word = some hashes :=
  ⟨_, getHashes_pos L bf word hb⟩

/-- What `insert` keeps and what it does to the bits. -/
theorem insert_spec (L : HashLib) (bf bf1 : BloomFilter) (element : String)
    (h : bf.insert L element = some bf1) :
    bf1.numBits = bf.numBits ∧ bf1.numHashFuncs = bf.numHashFuncs ∧
    ∃ hashes, bf.getHashes L element = some hashes ∧
      ∀ j, bf1.data.test j = (bf.data.test j || decide (j ∈ hashes)) := by
  unfold insert at h
  cases hg : bf.getHashes L element with
  | none => rw [hg] at h; cases h
  | some hashes =>
    rw [hg] at h
    cases h
    refine ⟨rfl, rfl, hashes, rfl, ?_⟩
    intro j
    exact insertLoop_test hashes bf.data bf.collisions j

theorem insert_isSome (L : HashLib) (bf : BloomFilter) (element : String) (hb : 0 < bf.numBits) :
    ∃ bf1, bf.insert L element = some bf1 := by
  obtain ⟨hashes, hg⟩ := getHashes_isSome L bf element hb
  exact ⟨_, insert_pos L bf element hashes hg⟩

/-- The effect of a sequence of inserts on the bits: nothing is cleared, `numBits` and
`numHashFuncs` stay, and the positions of every inserted word are set. -/
theorem insertAll_spec (L : HashLib) (words : List String) :
    ∀ (bf : BloomFilter), 0 < bf.numBits →
      ∃ bf1, insertAll L bf words = some bf1 ∧
        bf1.numBits = bf.numBits ∧ bf1.numHashFuncs = bf.numHashFuncs ∧
        (∀ j, bf.data.test j = true → bf1.data.test j = true) ∧
        (∀ x ∈ words, ∀ hashes, bf.getHashes L x = some hashes →
          ∀ pos ∈ hashes, bf1.data.test pos = true) := by
  induction words with
  | nil =>
    intro bf _
    exact ⟨bf, rfl, rfl, rfl, fun _ h => h, fun x hx => by cases hx⟩
  | cons word rest ih =>
    intro bf hb
    obtain ⟨bf1, h1⟩ := insert_isSome L bf word hb
    obtain ⟨hnb, hnh, hashes1, hg1, hbits1⟩ := insert_spec L bf bf1 word h1
    obtain ⟨bf2, h2, hnb2, hnh2, hmono2, hset2⟩ := ih bf1 (by omega)
    refine ⟨bf2, ?_, by omega, by omega, ?_, ?_⟩
    · rw [insertAll, h1]
      exact h2
    · intro j hj
      apply hmono2
      rw [hbits1, hj]
      rfl
    · intro x hx hashes hg pos hpos
      rcases List.mem_cons.1 hx with hx1 | hx1
      · subst hx1
        rw [hg1] at hg
        cases hg
        apply hmono2
        rw [hbits1]
        simp [hpos]
      · exact hset2 x hx1 hashes (by rw [getHashes_congr L bf1 bf x hnb hnh]; exact hg) pos hpos

end BloomFilter

/-! ## An insert whose positions are all set: facts -/

/-- When every derived position is already true, `insert` leaves the bits as they are and adds
`numHashFuncs` to `collisions` and 1 to `numInserts`, both in `int` arithmetic. -/
theorem BloomFilter.insert_all_set (L : HashLib) (bf : BloomFilter) (element : String)
    (hashes : List Nat) (hg : bf.getHashes L element = some hashes)
    (hall : ∀ pos ∈ hashes, bf.data.test pos = true)
    (h1 : INT_MIN ≤ bf.collisions) (h2 : bf.collisions ≤ INT_MAX) :
    bf.insert L element
      = some { bf with
          collisions := toInt (bf.collisions + bf.numHashFuncs)
          numInserts := toInt (bf.numInserts + 1) } := by
  rw [BloomFilter.insert_pos L bf element hashes hg]
  have hd : (BloomFilter.insertLoop hashes bf.data bf.collisions).1 = bf.data := by
    apply Bitset.ext_test
    intro j
    rw [BloomFilter.insertLoop_test]
    by_cases hj : j ∈ hashes
    · simp [hj, hall j hj]
    · simp [hj]
  have hc : (BloomFilter.insertLoop hashes bf.data bf.collisions).2
      = toInt (bf.collisions + bf.numHashFuncs) := by
    rw [BloomFilter.insertLoop_collisions_wrap hashes bf.data bf.collisions h1 h2,
      BloomFilter.alreadySet_of_all bf.data hashes hall,
      BloomFilter.getHashes_length L bf element hashes hg]
  rw [hd, hc]

/-- The two counters after an `insert`, in `int` arithmetic. -/
theorem BloomFilter.insert_counters (L : HashLib) (bf : BloomFilter) (element : String)
    (hashes : List Nat) (bf1 : BloomFilter) (hg : bf.getHashes L element = some hashes)
    (hins : bf.insert L element = some bf1)
    (h1 : INT_MIN ≤ bf.collisions) (h2 : bf.collisions ≤ INT_MAX) :
    bf1.numInserts = toInt (bf.numInserts + 1) ∧
    bf1.collisions = toInt (bf.collisions + BloomFilter.alreadySet bf.data hashes) := by
  rw [BloomFilter.insert_pos L bf element hashes hg] at hins
  cases hins
  exact ⟨rfl, BloomFilter.insertLoop_collisions_wrap hashes bf.data bf.collisions h1 h2⟩

/-! ## One bit: facts -/

/-- With `numBits = 1` every derived position is 0. -/
theorem BloomFilter.getHashes_one (L : HashLib) (bf : BloomFilter) (word : String)
    (h1 : bf.numBits = 1) :
    bf.getHashes L word = some (List.replicate bf.numHashFuncs 0) := by
  rw [BloomFilter.getHashes_pos L bf word (by omega)]
  congr 1
  apply List.ext_getElem
  · simp
  · intro i hi1 hi2
    simp only [List.getElem_map, List.getElem_range, List.getElem_replicate]
    have := BloomFilter.hashAt_lt bf.numBits
      (toInt ((L.strHashMD5 word % SIZE_T_MOD % bf.numBits : Nat) : Int))
      (toInt ((L.strHashSHA256 word % SIZE_T_MOD % bf.numBits : Nat) : Int)) i (by omega)
    omega

/-- In a filter with one bit, which is true, `search` returns the probability. -/
theorem BloomFilter.search_one_bit (L : HashLib) (bf : BloomFilter) (word : String)
    (h1 : bf.numBits = 1) (h0 : bf.data.test 0 = true) :
    bf.search L word = some bf.prob := by
  rw [BloomFilter.search_pos L bf word _ (BloomFilter.getHashes_one L bf word h1)]
  have hloop : BloomFilter.searchLoop bf.data (List.replicate bf.numHashFuncs 0) = true := by
    rw [BloomFilter.searchLoop_eq_true]
    intro pos hpos
    rw [(List.mem_replicate.1 hpos).2]
    exact h0
  rw [hloop]
  rfl

/-- In a filter with one bit, which is true, an `insert` adds `numHashFuncs` to `collisions` and 1
to `numInserts`, in `int` arithmetic, and changes nothing else. -/
theorem BloomFilter.insert_one_bit (L : HashLib) (bf : BloomFilter) (word : String)
    (h1 : bf.numBits = 1) (h0 : bf.data.test 0 = true)
    (hc1 : INT_MIN ≤ bf.collisions) (hc2 : bf.collisions ≤ INT_MAX) :
    bf.insert L word
      = some { bf with
          collisions := toInt (bf.collisions + bf.numHashFuncs)
          numInserts := toInt (bf.numInserts + 1) } :=
  BloomFilter.insert_all_set L bf word _ (BloomFilter.getHashes_one L bf word h1)
    (fun pos hpos => by rw [(List.mem_replicate.1 hpos).2]; exact h0) hc1 hc2

/-- In a filter with one bit, which is true, a sequence of inserts adds `numHashFuncs` to
`collisions` and 1 to `numInserts` for each word, in `int` arithmetic. -/
theorem BloomFilter.insertAll_one_bit (L : HashLib) (words : List String) :
    ∀ bf : BloomFilter, bf.numBits = 1 → bf.data.test 0 = true → bf.InRange →
      BloomFilter.insertAll L bf words
        = some { bf with
            collisions := toInt (bf.collisions + words.length * bf.numHashFuncs)
            numInserts := toInt (bf.numInserts + words.length) } := by
  induction words with
  | nil =>
    intro bf _ _ hr
    obtain ⟨_, _, hn1, hn2, hc1, hc2⟩ := hr
    simp only [BloomFilter.insertAll, List.length_nil, Nat.cast_zero, zero_mul, add_zero]
    rw [toInt_of_range _ hc1 hc2, toInt_of_range _ hn1 hn2]
  | cons word rest ih =>
    intro bf h1 h0 hr
    obtain ⟨hs1, hs2, hn1, hn2, hc1, hc2⟩ := hr
    have hrc := toInt_range (bf.collisions + bf.numHashFuncs)
    have hrn := toInt_range (bf.numInserts + 1)
    have hstep := ih { bf with
        collisions := toInt (bf.collisions + bf.numHashFuncs)
        numInserts := toInt (bf.numInserts + 1) } h1 h0
      ⟨hs1, hs2, hrn.1, hrn.2, hrc.1, hrc.2⟩
    rw [BloomFilter.insertAll, BloomFilter.insert_one_bit L bf word h1 h0 hc1 hc2]
    show BloomFilter.insertAll L _ rest = _
    rw [hstep]
    simp only [toInt_toInt_add, List.length_cons, Nat.cast_add, Nat.cast_one]
    have e1 : bf.collisions + (bf.numHashFuncs : Int) + (rest.length : Int) * bf.numHashFuncs
        = bf.collisions + ((rest.length : Int) + 1) * bf.numHashFuncs := by ring
    have e2 : bf.numInserts + 1 + (rest.length : Int) = bf.numInserts + ((rest.length : Int) + 1) := by
      ring
    rw [e1, e2]

/-! ## The constructor: facts -/

/-- Whatever positive `numBits` the constructor is given, one of the bits below `numBits` is true
in the filter it returns: the highest binary digit of `numBits`. -/
theorem BloomFilter.new_has_bit (numberOfBits numberOfHashFunctions : Nat)
    (h0 : 0 < numberOfBits) (h1 : numberOfBits < SIZE_T_MOD) :
    ∃ j, j < numberOfBits ∧
      (BloomFilter.new numberOfBits numberOfHashFunctions).data.test j = true := by
  obtain ⟨i, hi, _⟩ := Nat.exists_most_significant_bit (n := numberOfBits) (by omega)
  have hge : numberOfBits ≥ 2 ^ i := Nat.testBit_implies_ge hi
  have hlt : i < 2 ^ i := Nat.lt_two_pow i
  refine ⟨i, by omega, ?_⟩
  unfold SIZE_T_MOD at h1
  simp only [BloomFilter.new, Bitset.ofULL, Bitset.test]
  rw [Nat.mod_eq_of_lt h1]
  exact hi

/-! ## Loading the word lists: facts -/

theorem mem_upperLetters (c : Char) : c ∈ upperLetters ↔ 65 ≤ c.toNat ∧ c.toNat ≤ 90 := by
  constructor
  · intro h
    simp only [upperLetters, String.toList] at h
    revert h
    simp only [List.mem_cons, List.mem_singleton, List.not_mem_nil, or_false]
    rintro (h | h | h | h | h | h | h | h | h | h | h | h | h | h | h | h | h | h | h | h | h | h
      | h | h | h | h) <;> subst h <;> decide
  · rintro ⟨h1, h2⟩
    have hc : c = Char.ofNat c.toNat := (Char.ofNat_toNat c).symm
    rw [hc]
    generalize c.toNat = n at h1 h2
    interval_cases n <;> decide

theorem isAlpha_iff (c : Char) :
    c.isAlpha = true ↔ ((65 ≤ c.toNat ∧ c.toNat ≤ 90) ∨ (97 ≤ c.toNat ∧ c.toNat ≤ 122)) := by
  simp only [Char.isAlpha, Char.isUpper, Char.isLower, Bool.or_eq_true, Bool.and_eq_true,
    decide_eq_true_eq]
  rfl

/-- The upper-cased character is one of `A` to `Z` exactly when the character is a letter. -/
theorem toupper_mem (c : Char) : toupper c ∈ upperLetters ↔ c.isAlpha = true := by
  rw [mem_upperLetters, isAlpha_iff]
  unfold toupper
  by_cases h : 97 ≤ c.toNat ∧ c.toNat ≤ 122
  · rw [if_pos h]
    obtain ⟨h1, h2⟩ := h
    have hup : 65 ≤ (Char.ofNat (c.toNat - 32)).toNat ∧ (Char.ofNat (c.toNat - 32)).toNat ≤ 90 := by
      generalize c.toNat = n at h1 h2
      interval_cases n <;> decide
    constructor
    · intro _; right; exact ⟨h1, h2⟩
    · intro _; exact hup
  · rw [if_neg h]
    constructor
    · intro h1; left; exact h1
    · rintro (h1 | h1)
      · exact h1
      · exact absurd h1 h

theorem upperCase_length (line : String) : (upperCase line).length = line.length := by
  cases line with
  | mk l =>
    show (List.map toupper l).length = l.length
    exact List.length_map l toupper

theorem allUpperLetters_iff (line : String) :
    allUpperLetters line = true ↔ ∀ c ∈ line.toList, c ∈ upperLetters := by
  simp [allUpperLetters]

theorem allUpperLetters_upperCase (line : String) :
    allUpperLetters (upperCase line) = true ↔ ∀ c ∈ line.toList, c.isAlpha = true := by
  rw [allUpperLetters_iff]
  simp only [upperCase, String.toList, List.mem_map, forall_exists_index, and_imp,
    forall_apply_eq_imp_iff₂]
  constructor
  · intro h c hc; exact (toupper_mem c).1 (h c hc)
  · intro h c hc; exact (toupper_mem c).2 (h c hc)

theorem loadLines_eq (minimumWordLength : Nat) (lines data : List String) :
    loadLines minimumWordLength lines data
      = data ++ (lines.map upperCase).filter (keepsLine minimumWordLength) := by
  induction lines generalizing data with
  | nil => simp [loadLines]
  | cons line rest ih =>
    rw [loadLines, ih]
    by_cases hk : keepsLine minimumWordLength (upperCase line) = true
    · simp [hk]
    · simp [hk]

/-! ## Counting the words: facts -/

/-- With `numBits` positive `search` returns `-1` or the probability. -/
theorem BloomFilter.search_cases (L : HashLib) (bf : BloomFilter) (word : String)
    (hb : 0 < bf.numBits) :
    bf.search L word = some (-1) ∨ bf.search L word = some bf.prob := by
  obtain ⟨hashes, hg⟩ := BloomFilter.getHashes_isSome L bf word hb
  rw [BloomFilter.search_pos L bf word hashes hg]
  cases BloomFilter.searchLoop bf.data hashes with
  | false => left; rfl
  | true => right; rfl

/-- A word inserted by `insertAll` is found by `search` afterwards. -/
theorem BloomFilter.search_after_insertAll (L : HashLib) (bf bf1 : BloomFilter)
    (words : List String) (x : String) (hb : 0 < bf.numBits) (hx : x ∈ words)
    (hins : BloomFilter.insertAll L bf words = some bf1) :
    bf1.search L x = some bf1.prob ∧ bf1.prob ≠ -1 ∧ 0 < bf1.numBits := by
  obtain ⟨bf2, h1, hnb, hnh, _, hset⟩ := BloomFilter.insertAll_spec L words bf hb
  rw [hins] at h1
  cases h1
  obtain ⟨hashes, hg⟩ := BloomFilter.getHashes_isSome L bf x hb
  have hg1 : bf1.getHashes L x = some hashes := by
    rw [BloomFilter.getHashes_congr L bf1 bf x hnb hnh]; exact hg
  have hloop : BloomFilter.searchLoop bf1.data hashes = true :=
    (BloomFilter.searchLoop_eq_true bf1.data hashes).2 (hset x hx hashes hg)
  refine ⟨?_, BloomFilter.prob_ne_absent bf1 (by omega), by omega⟩
  rw [BloomFilter.search_pos L bf1 x hashes hg1, hloop]
  rfl

/-- The map after the counting loop, in `int` arithmetic: a key that is among the tokens and
whose search is not `-1` has its old value (0 when it had none) plus the number of its
occurrences; every other key keeps what it had. -/
theorem countLoop_spec (L : HashLib) (bf : BloomFilter) (hb : 0 < bf.numBits)
    (tokens : List String) :
    ∀ wordCount : WordCount, ∃ wc, countLoop L bf tokens wordCount = some wc ∧
      ∀ key, wc key =
        if key ∈ tokens ∧ bf.search L key ≠ some (-1) then
          some (toInt ((wordCount key).getD 0 + tokens.count key))
        else wordCount key := by
  induction tokens with
  | nil =>
    intro wordCount
    exact ⟨wordCount, rfl, fun key => by simp⟩
  | cons word rest ih =>
    intro wordCount
    have hne := BloomFilter.prob_ne_absent bf hb
    rcases BloomFilter.search_cases L bf word hb with hs | hs
    · obtain ⟨wc, hwc, hkeys⟩ := ih wordCount
      refine ⟨wc, ?_, ?_⟩
      · rw [countLoop, hs]
        simpa using hwc
      · intro key
        rw [hkeys key]
        by_cases hk : key = word
        · subst hk
          simp [hs]
        · have hk2 : ¬ word = key := fun e => hk e.symm
          simp [hk, List.count_cons, hk2]
    · obtain ⟨wc, hwc, hkeys⟩ := ih (WordCount.increment wordCount word)
      refine ⟨wc, ?_, ?_⟩
      · rw [countLoop, hs]
        simpa [hne] using hwc
      · intro key
        rw [hkeys key]
        have hsne : bf.search L word ≠ some (-1) := by
          rw [hs]; intro h; exact hne (Option.some.inj h)
        by_cases hk : key = word
        · subst hk
          by_cases hin : key ∈ rest
          · simp only [hin, hsne, ne_eq, not_false_eq_true, and_self, if_true,
              List.mem_cons, true_or, WordCount.increment, Option.getD_some, toInt_toInt_add,
              List.count_cons_self]
            congr 2
            push_cast
            ring
          · simp only [hin, false_and, if_false, List.mem_cons, true_or, hsne, ne_eq,
              not_false_eq_true, and_self, if_true, WordCount.increment,
              List.count_cons_self, List.count_eq_zero_of_not_mem hin]
            simp
        · have hk2 : ¬ word = key := fun e => hk e.symm
          simp [hk, hk2, WordCount.increment, List.count_cons]

/-! ## Repeated and reordered inserts: facts -/

theorem toInt_succ_ne (a : Int) : toInt (toInt a + 1) ≠ toInt a := by
  unfold toInt
  omega

theorem toInt_add_ne (c : Int) (k : Nat) (hk : k % 2 ^ 32 ≠ 0) : toInt (c + (k : Int)) ≠ c := by
  unfold toInt
  omega

/-- The value of `collisions` after an `insert` is in the range of `int` when it was before. -/
theorem BloomFilter.insert_collisions_range (L : HashLib) (bf bf1 : BloomFilter)
    (element : String) (hins : bf.insert L element = some bf1)
    (h1 : INT_MIN ≤ bf.collisions) (h2 : bf.collisions ≤ INT_MAX) :
    INT_MIN ≤ bf1.collisions ∧ bf1.collisions ≤ INT_MAX := by
  obtain ⟨_, _, hashes, hg, _⟩ := BloomFilter.insert_spec L bf bf1 element hins
  rw [(BloomFilter.insert_counters L bf element hashes bf1 hg hins h1 h2).2]
  exact toInt_range _

/-- The bits after a sequence of inserts: the bits that were true and the derived positions of
the inserted words, nothing else. -/
theorem BloomFilter.insertAll_test (L : HashLib) (words : List String) :
    ∀ (bf bf1 : BloomFilter), BloomFilter.insertAll L bf words = some bf1 →
      ∀ j, bf1.data.test j = true ↔
        (bf.data.test j = true ∨
          ∃ w ∈ words, ∃ hashes, bf.getHashes L w = some hashes ∧ j ∈ hashes) := by
  induction words with
  | nil =>
    intro bf bf1 h j
    simp only [BloomFilter.insertAll, Option.some.injEq] at h
    subst h
    simp
  | cons word rest ih =>
    intro bf bf2 h j
    rw [BloomFilter.insertAll] at h
    cases hins : bf.insert L word with
    | none => rw [hins] at h; cases h
    | some bf1 =>
      rw [hins] at h
      obtain ⟨hnb, hnh, hashes, hg, hbits⟩ := BloomFilter.insert_spec L bf bf1 word hins
      rw [ih bf1 bf2 h j, hbits j]
      have hcongr : ∀ w, bf1.getHashes L w = bf.getHashes L w :=
        fun w => BloomFilter.getHashes_congr L bf1 bf w hnb hnh
      constructor
      · rintro (h1 | ⟨w, hw, hs, hgw, hj⟩)
        · rw [Bool.or_eq_true, decide_eq_true_eq] at h1
          rcases h1 with h1 | h1
          · left; exact h1
          · right; exact ⟨word, List.mem_cons_self _ _, hashes, hg, h1⟩
        · right
          exact ⟨w, List.mem_cons_of_mem _ hw, hs, by rw [← hcongr w]; exact hgw, hj⟩
      · rintro (h1 | ⟨w, hw, hs, hgw, hj⟩)
        · left; simp [h1]
        · rcases List.mem_cons.1 hw with e | hw1
          · subst e
            rw [hg] at hgw
            cases hgw
            left; simp [hj]
          · right
            exact ⟨w, hw1, hs, by rw [hcongr w]; exact hgw, hj⟩

/-- A sequence of operations without an `insert` hands the filter on as it is. -/
theorem BloomFilter.runOps_no_insert (L : HashLib) (bf : BloomFilter) (hb : 0 < bf.numBits)
    (ops : List BloomFilter.Op) (hops : ∀ op ∈ ops, op.isInsert = false) :
    BloomFilter.runOps L bf ops = some bf := by
  induction ops with
  | nil => rfl
  | cons op rest ih =>
    have hrest : ∀ o ∈ rest, o.isInsert = false := fun o ho => hops o (List.mem_cons_of_mem _ ho)
    have hop := hops op (List.mem_cons_self _ _)
    have hstep : bf.step L op = some bf := by
      cases op with
      | insert element => cases hop
      | search element =>
        simp only [BloomFilter.step]
        rcases BloomFilter.search_cases L bf element hb with hs | hs <;> rw [hs] <;> rfl
      | get_collisions => rfl
    rw [BloomFilter.runOps, hstep]
    exact ih hrest

theorem BloomFilter.mem_insertAccesses (hashes : List Nat) (pos : Nat) :
    pos ∈ BloomFilter.insertAccesses hashes ↔ pos ∈ hashes := by
  induction hashes with
  | nil => simp [BloomFilter.insertAccesses]
  | cons hash rest ih => simp [BloomFilter.insertAccesses, ih]

theorem BloomFilter.mem_searchAccesses (data : Bitset) (hashes : List Nat) (pos : Nat)
    (h : pos ∈ BloomFilter.searchAccesses data hashes) : pos ∈ hashes := by
  induction hashes with
  | nil => simp [BloomFilter.searchAccesses] at h
  | cons hash rest ih =>
    rw [BloomFilter.searchAccesses, List.mem_cons] at h
    rcases h with h | h
    · rw [h]; exact List.mem_cons_self _ _
    · split at h
      · cases h
      · exact List.mem_cons_of_mem _ (ih h)

/-! ## The offloaded `search`: facts -/

/-- The offloaded `search` returns the probability for every element, whatever the bits are. -/
theorem Sycl.search_eq_prob (L : HashLib) (bf : BloomFilter) (element : String)
    (hb : 0 < bf.numBits) : Sycl.search L bf element = some bf.prob := by
  obtain ⟨hashes, hg⟩ := BloomFilter.getHashes_isSome L bf element hb
  unfold Sycl.search
  rw [hg]
  rfl

/-! ## The number of true bits: facts -/

theorem countP_range_extend (p : Nat → Bool) (m n : Nat) (h : m ≤ n)
    (hp : ∀ j, m ≤ j → p j = false) :
    (List.range n).countP p = (List.range m).countP p := by
  induction n with
  | zero =>
    have : m = 0 := by omega
    rw [this]
  | succ k ih =>
    by_cases hk : m = k + 1
    · rw [hk]
    · rw [List.range_succ, List.countP_append, ih (by omega)]
      simp [hp k (by omega)]

theorem countP_range_update (p : Nat → Bool) (pos n : Nat) (h : pos < n) :
    (List.range n).countP (fun j => p j || decide (pos = j))
      = (List.range n).countP p + (if p pos = true then 0 else 1) := by
  induction n with
  | zero => omega
  | succ k ih =>
    rw [List.range_succ, List.countP_append, List.countP_append]
    by_cases hk : pos = k
    · subst hk
      have hsame : (List.range pos).countP (fun j => p j || decide (pos = j))
          = (List.range pos).countP p := by
        apply List.countP_congr
        intro j hj
        have hj2 : j < pos := List.mem_range.1 hj
        have hne : ¬ pos = j := by omega
        simp [hne]
      rw [hsame]
      cases hp : p pos <;> simp [hp]
    · rw [ih (by omega)]
      have hlast : List.countP (fun j => p j || decide (pos = j)) [k] = List.countP p [k] := by
        apply List.countP_congr
        intro j hj
        rw [List.mem_singleton.1 hj]
        simp [hk]
      rw [hlast]
      omega

theorem testBit_lt_succ (x j : Nat) (h : x.testBit j = true) : j < x + 1 := by
  have hge : x ≥ 2 ^ j := Nat.testBit_implies_ge h
  have hlt : j < 2 ^ j := Nat.lt_two_pow j
  omega

/-- The count over any range that holds all true bits. -/
theorem Bitset.count_eq (b : Bitset) (n : Nat) (hn : b.val + 1 ≤ n) :
    b.count = (List.range n).countP (fun j => b.test j) := by
  unfold Bitset.count Bitset.test
  symm
  apply countP_range_extend _ _ _ hn
  intro j hj
  cases ht : b.val.testBit j with
  | false => rfl
  | true =>
    have := testBit_lt_succ b.val j ht
    omega

/-- The assignment `(*data)[pos] = true` adds one true bit when the bit was false and none
when it was true. -/
theorem Bitset.count_set (b : Bitset) (pos : Nat) :
    (b.set pos).count = b.count + (if b.test pos = true then 0 else 1) := by
  have h1 := Bitset.count_eq b
    (max (b.val + 1) (max ((b.set pos).val + 1) (pos + 1)))
    (le_max_left _ _)
  have h2 := Bitset.count_eq (b.set pos)
    (max (b.val + 1) (max ((b.set pos).val + 1) (pos + 1)))
    (le_trans (le_max_left _ _) (le_max_right _ _))
  have hpos : pos < max (b.val + 1) (max ((b.set pos).val + 1) (pos + 1)) :=
    lt_of_lt_of_le (Nat.lt_succ_self pos) (le_trans (le_max_right _ _) (le_max_right _ _))
  rw [h1, h2, ← countP_range_update (fun j => b.test j) pos _ hpos]
  apply List.countP_congr
  intro j _
  simp [Bitset.test_set]

namespace BloomFilter

/-- The loop of `insert` keeps the sum of the true bits and the positions found true equal to
the true bits before plus the number of positions. -/
theorem insertLoop_count (hashes : List Nat) (data : Bitset) (collisions : Int) :
    (insertLoop hashes data collisions).1.count + alreadySet data hashes
      = data.count + hashes.length := by
  induction hashes generalizing data collisions with
  | nil => simp [insertLoop, alreadySet]
  | cons hash rest ih =>
    rw [insertLoop, alreadySet, List.length_cons]
    have h := ih (data.set hash) (if data.test hash = true then toInt (collisions + 1) else collisions)
    rw [Bitset.count_set] at h
    cases ht : data.test hash <;> simp only [ht, if_true, if_false, Bool.false_eq_true] at h ⊢ <;>
      omega

/-- One `insert`: the true bits and the positions found true, and `collisions` in `int`
arithmetic. -/
theorem insert_count (L : HashLib) (bf bf1 : BloomFilter) (element : String)
    (hins : bf.insert L element = some bf1)
    (h1 : INT_MIN ≤ bf.collisions) (h2 : bf.collisions ≤ INT_MAX) :
    ∃ a : Nat, bf1.data.count + a = bf.data.count + bf.numHashFuncs ∧
      bf1.collisions = toInt (bf.collisions + a) ∧
      bf1.numInserts = toInt (bf.numInserts + 1) ∧ a ≤ bf.numHashFuncs := by
  obtain ⟨_, _, hashes, hg, _⟩ := insert_spec L bf bf1 element hins
  obtain ⟨hn, hc⟩ := insert_counters L bf element hashes bf1 hg hins h1 h2
  have hle := alreadySet_le bf.data hashes
  rw [getHashes_length L bf element hashes hg] at hle
  refine ⟨alreadySet bf.data hashes, ?_, hc, hn, hle⟩
  have hd : bf1.data = (insertLoop hashes bf.data bf.collisions).1 := by
    rw [insert_pos L bf element hashes hg] at hins
    cases hins
    rfl
  rw [hd, insertLoop_count, getHashes_length L bf element hashes hg]

/-- A sequence of inserts: the true bits and the positions found true, and the two counters in
`int` arithmetic. -/
theorem insertAll_count (L : HashLib) (words : List String) :
    ∀ bf : BloomFilter, 0 < bf.numBits → bf.InRange →
      ∃ (bf1 : BloomFilter) (a : Nat), insertAll L bf words = some bf1 ∧
        bf1.data.count + a = bf.data.count + bf.numHashFuncs * words.length ∧
        bf1.collisions = toInt (bf.collisions + a) ∧
        bf1.numInserts = toInt (bf.numInserts + words.length) ∧
        a ≤ bf.numHashFuncs * words.length := by
  induction words with
  | nil =>
    intro bf _ hr
    obtain ⟨_, _, hn1, hn2, h1, h2⟩ := hr
    refine ⟨bf, 0, rfl, by simp, ?_, ?_, by simp⟩
    · simp [toInt_of_range _ h1 h2]
    · simp [toInt_of_range _ hn1 hn2]
  | cons word rest ih =>
    intro bf hb hr
    obtain ⟨hs1, hs2, hn1, hn2, h1, h2⟩ := hr
    obtain ⟨bf1, hins⟩ := insert_isSome L bf word hb
    obtain ⟨hnb, hnh, _⟩ := insert_spec L bf bf1 word hins
    obtain ⟨a, hcount, hcol, hnum, hale⟩ := insert_count L bf bf1 word hins h1 h2
    obtain ⟨hr1, hr2⟩ := insert_collisions_range L bf bf1 word hins h1 h2
    have hrn := toInt_range (bf.numInserts + 1)
    have hr : bf1.InRange :=
      ⟨by rw [hnb]; exact hs1, by rw [hnh]; exact hs2, by rw [hnum]; exact hrn.1,
        by rw [hnum]; exact hrn.2, hr1, hr2⟩
    obtain ⟨bf2, a2, hall, hcount2, hcol2, hnum2, hale2⟩ := ih bf1 (by omega) hr
    refine ⟨bf2, a + a2, ?_, ?_, ?_, ?_, ?_⟩
    rotate_right
    · rw [hnh] at hale2
      rw [List.length_cons, Nat.mul_succ]
      omega
    · rw [insertAll, hins]
      exact hall
    · rw [hnh] at hcount2
      rw [List.length_cons, Nat.mul_succ]
      omega
    · rw [hcol2, hcol, toInt_toInt_add]
      congr 1
      push_cast
      ring
    · rw [hnum2, hnum, toInt_toInt_add, List.length_cons]
      congr 1
      push_cast
      ring

end BloomFilter

/-- The bit set after inserting a list of words is the bit set after inserting a permutation of
the list. -/
theorem BloomFilter.insertAll_perm_data (L : HashLib) (bf : BloomFilter)
    (l1 l2 : List String) (hb : 0 < bf.numBits) (hp : l1.Perm l2) :
    ∃ b1 b2, BloomFilter.insertAll L bf l1 = some b1 ∧
      BloomFilter.insertAll L bf l2 = some b2 ∧ b1.data = b2.data := by
  obtain ⟨b1, h1, _⟩ := BloomFilter.insertAll_spec L l1 bf hb
  obtain ⟨b2, h2, _⟩ := BloomFilter.insertAll_spec L l2 bf hb
  refine ⟨b1, b2, h1, h2, ?_⟩
  apply Bitset.ext_test
  intro j
  have t1 := BloomFilter.insertAll_test L l1 bf b1 h1 j
  have t2 := BloomFilter.insertAll_test L l2 bf b2 h2 j
  have hiff : b1.data.test j = true ↔ b2.data.test j = true := by
    rw [t1, t2]
    constructor
    · rintro (h | ⟨w, hw, r⟩)
      · left; exact h
      · right; exact ⟨w, hp.mem_iff.1 hw, r⟩
    · rintro (h | ⟨w, hw, r⟩)
      · left; exact h
      · right; exact ⟨w, hp.mem_iff.2 hw, r⟩
  cases h1b : b1.data.test j with
  | true => exact (hiff.1 h1b).symm
  | false =>
    cases h2b : b2.data.test j with
    | false => rfl
    | true => rw [hiff.2 h2b] at h1b; cases h1b

theorem Bitset.count_eq_zero (b : Bitset) (h : ∀ j, b.test j = false) : b.count = 0 := by
  unfold Bitset.count
  rw [List.countP_eq_zero]
  intro j _
  have := h j
  unfold Bitset.test at this
  simp [this]

/-! ## The word count of `wc_final.cpp`: facts -/

namespace WcFinal

theorem set_replicate_self (n i : Nat) (c : Char) :
    (List.replicate n c).set i c = List.replicate n c := by
  induction n generalizing i with
  | zero => simp
  | succ k ih =>
    cases i with
    | zero => simp [List.replicate_succ]
    | succ j => simp [List.replicate_succ, ih]

/-- The array that the copy and the assignment of the last character leave: the kept characters
and `'\0'` behind them. -/
theorem strncpy_set (n : Nat) :
    ∀ l : List Char, (strncpy l (n + 1)).set n NUL
      = (l.takeWhile (· ≠ NUL)).take n
        ++ List.replicate (n + 1 - ((l.takeWhile (· ≠ NUL)).take n).length) NUL := by
  induction n with
  | zero =>
    intro l
    cases l with
    | nil => simp [strncpy]
    | cons c cs =>
      by_cases hc : c = NUL
      · simp [strncpy, hc]
      · simp [strncpy, hc]
  | succ k ih =>
    intro l
    cases l with
    | nil => simp [strncpy, set_replicate_self]
    | cons c cs =>
      by_cases hc : c = NUL
      · simp [strncpy, hc, set_replicate_self]
      · have := ih cs
        simp only [strncpy, hc, if_false, List.set_cons_succ, this, ne_eq, not_false_eq_true,
          List.takeWhile_cons_of_pos, decide_eq_true_eq, List.take_succ_cons, List.length_cons,
          List.cons_append, decide_not, Bool.not_eq_true', decide_eq_false_iff_not]
        rw [Nat.add_sub_add_right]

theorem kept_length (str : String) : (kept str).length ≤ 31 := by
  unfold kept
  rw [List.length_take]
  exact Nat.min_le_left _ _

theorem kept_no_nul (str : String) : ∀ c ∈ kept str, c ≠ NUL := by
  intro c hc
  have h1 := List.mem_of_mem_take hc
  have h2 := List.mem_takeWhile_imp h1
  simpa using h2

theorem ofString_data (str : String) :
    (StringData.ofString str).data
      = kept str ++ List.replicate (32 - (kept str).length) NUL := by
  unfold StringData.ofString kept
  exact strncpy_set 31 str.toList

/-- Two arrays of kept characters and `'\0'` behind them compare equal exactly when the kept
characters are the same. -/
theorem strncmpEq_kept (k1 : List Char) :
    ∀ (k2 : List Char) (m1 m2 n : Nat), (∀ c ∈ k1, c ≠ NUL) → (∀ c ∈ k2, c ≠ NUL) →
      0 < m1 → 0 < m2 → k1.length + m1 = n → k2.length + m2 = n →
      strncmpEq (k1 ++ List.replicate m1 NUL) (k2 ++ List.replicate m2 NUL) n
        = decide (k1 = k2) := by
  induction k1 with
  | nil =>
    intro k2 m1 m2 n _ h2 hm1 hm2 e1 e2
    obtain ⟨p1, rfl⟩ : ∃ p, m1 = p + 1 := ⟨m1 - 1, by omega⟩
    cases k2 with
    | nil =>
      obtain ⟨p2, rfl⟩ : ∃ p, m2 = p + 1 := ⟨m2 - 1, by omega⟩
      obtain ⟨q, rfl⟩ : ∃ q, n = q + 1 := ⟨n - 1, by simp at e1; omega⟩
      simp [List.replicate_succ, strncmpEq]
    | cons b bs =>
      obtain ⟨q, rfl⟩ : ∃ q, n = q + 1 := ⟨n - 1, by simp at e1; omega⟩
      have hb : b ≠ NUL := h2 b (List.mem_cons_self _ _)
      have hb2 : ¬ NUL = b := fun e => hb e.symm
      simp [List.replicate_succ, strncmpEq, hb2]
  | cons a as ih =>
    intro k2 m1 m2 n h1 h2 hm1 hm2 e1 e2
    have ha : a ≠ NUL := h1 a (List.mem_cons_self _ _)
    obtain ⟨q, rfl⟩ : ∃ q, n = q + 1 := ⟨n - 1, by simp at e1; omega⟩
    cases k2 with
    | nil =>
      obtain ⟨p2, rfl⟩ : ∃ p, m2 = p + 1 := ⟨m2 - 1, by omega⟩
      simp [List.replicate_succ, strncmpEq, ha]
    | cons b bs =>
      by_cases hab : a = b
      · subst hab
        have := ih bs m1 m2 q (fun c hc => h1 c (List.mem_cons_of_mem _ hc))
          (fun c hc => h2 c (List.mem_cons_of_mem _ hc)) hm1 hm2
          (by simp at e1; omega) (by simp at e2; omega)
        simp [strncmpEq, ha, this]
      · simp [strncmpEq, hab]

theorem eq_ofString (a b : String) :
    (StringData.ofString a).eq (StringData.ofString b) = decide (kept a = kept b) := by
  unfold StringData.eq
  rw [ofString_data, ofString_data]
  have ha := kept_length a
  have hb := kept_length b
  exact strncmpEq_kept (kept a) (kept b) _ _ 32 (kept_no_nul a) (kept_no_nul b)
    (by omega) (by omega) (by omega) (by omega)

theorem toString_ofString (str : String) :
    (StringData.ofString str).toString = String.mk (kept str) := by
  unfold StringData.toString
  rw [ofString_data]
  congr 1
  have hk := kept_no_nul str
  have hlen := kept_length str
  generalize kept str = k at hk hlen
  obtain ⟨p, hp⟩ : ∃ p, 32 - k.length = p + 1 := ⟨32 - k.length - 1, by omega⟩
  rw [hp]
  clear hp hlen
  induction k with
  | nil => simp [List.replicate_succ]
  | cons c cs ih =>
    have hc : c ≠ NUL := hk c (List.mem_cons_self _ _)
    simp only [List.cons_append, ne_eq, hc, not_false_eq_true, decide_True,
      List.takeWhile_cons_of_pos]
    rw [ih (fun x hx => hk x (List.mem_cons_of_mem _ hx))]

end WcFinal

namespace WcFinal

theorem zipWith_zipWith_right {α β : Type} (f : α → Int → β) (g : α → Int → Int)
    (us : List α) :
    ∀ cs : List Int, List.zipWith f us (List.zipWith g us cs)
      = List.zipWith (fun u c => f u (g u c)) us cs := by
  induction us with
  | nil => intro cs; simp
  | cons u rest ih =>
    intro cs
    cases cs with
    | nil => simp
    | cons c cs2 => simp [ih]

theorem zipWith_snd {α : Type} (us : List α) :
    ∀ cs : List Int, cs.length = us.length → List.zipWith (fun _ c => c) us cs = cs := by
  induction us with
  | nil =>
    intro cs h
    cases cs with
    | nil => rfl
    | cons c cs2 => simp at h
  | cons u rest ih =>
    intro cs h
    cases cs with
    | nil => simp
    | cons c cs2 =>
      simp only [List.zipWith_cons_cons, List.cons.injEq, true_and]
      exact ih cs2 (by simpa using h)

theorem workItem_length (uniqueWords : List StringData) (wordCounts : List Int)
    (word : StringData) (h : wordCounts.length = uniqueWords.length) :
    (workItem uniqueWords wordCounts word).length = uniqueWords.length := by
  unfold workItem
  rw [List.length_zipWith, h, Nat.min_self]

/-- The counters after the kernel, in `int` arithmetic: each counter has grown by the number of
input words that compare equal to its unique word. -/
theorem countWordOccurrences_eq (uniqueWords : List StringData) (words : List StringData) :
    ∀ wordCounts : List Int, wordCounts.length = uniqueWords.length →
      countWordOccurrences words uniqueWords wordCounts
        = List.zipWith (fun u c => if words.countP (fun w => u.eq w) = 0 then c
            else toInt (c + (words.countP (fun w => u.eq w) : Nat))) uniqueWords wordCounts := by
  induction words with
  | nil =>
    intro wordCounts hlen
    simp only [countWordOccurrences, List.foldl_nil, List.countP_nil, if_true]
    exact (zipWith_snd uniqueWords wordCounts hlen).symm
  | cons w ws ih =>
    intro wordCounts hlen
    have h := ih (workItem uniqueWords wordCounts w)
      (workItem_length uniqueWords wordCounts w hlen)
    unfold countWordOccurrences at h ⊢
    rw [List.foldl_cons, h]
    unfold workItem
    rw [zipWith_zipWith_right]
    congr 1
    funext u c
    rw [List.countP_cons]
    cases hu : u.eq w
    · simp
    · simp only [if_true, Nat.add_eq_zero, one_ne_zero, and_false, if_false, toInt_toInt_add]
      by_cases hz : List.countP (fun w => u.eq w) ws = 0
      · simp [hz]
      · simp only [hz, if_false]
        congr 1
        push_cast
        ring

/-- The vector `wordCountPairs`: for each word of `wordSet` its kept characters, paired with the
number of input words that have the same kept characters, reduced to an `int`. -/
theorem mainPairs_eq (targetWords wordSet : List String) :
    mainPairs targetWords wordSet
      = wordSet.map (fun w => (String.mk (kept w),
          toInt (targetWords.countP (fun t => decide (kept w = kept t)) : Nat))) := by
  unfold mainPairs
  simp only
  rw [countWordOccurrences_eq _ _ _ (by simp), zipWith_zipWith_right]
  induction wordSet with
  | nil => simp
  | cons w rest ih =>
    simp only [List.map_cons, List.length_cons, List.replicate_succ, List.zipWith_cons_cons,
      List.length_map] at ih ⊢
    rw [ih]
    congr 1
    have hcount : List.countP (fun d => (StringData.ofString w).eq d)
        (List.map StringData.ofString targetWords)
        = targetWords.countP (fun t => decide (kept w = kept t)) := by
      rw [List.countP_map]
      apply List.countP_congr
      intro t _
      simp [eq_ofString]
    rw [hcount, toString_ofString]
    by_cases hz : targetWords.countP (fun t => decide (kept w = kept t)) = 0
    · rw [hz]; simp [toInt]
    · simp [hz]

end WcFinal

/-! ## The single-hash filter and the counting kernel: facts -/

namespace WcNew

theorem getD_set_true (l : List Bool) (i j : Nat) (h : i < l.length) :
    (l.set i true).getD j false = (l.getD j false || decide (i = j)) := by
  rw [List.getD_eq_getElem?_getD, List.getD_eq_getElem?_getD, List.getElem?_set]
  by_cases hij : i = j
  · subst hij; simp [h]
  · simp [hij]

/-- What `insert` does to a filter whose vector has `size` elements, `size` positive. -/
theorem BloomFilter.insert_sets_bit (bf : BloomFilter) (word : String) (hs : 0 < bf.size)
    (hl : bf.bit_vector.length = bf.size) :
    ∃ bf1, bf.insert word = some bf1 ∧ bf1.size = bf.size ∧
      bf1.bit_vector.length = bf.size ∧
      ∀ j, bf1.bit_vector.getD j false
        = (bf.bit_vector.getD j false || decide (BloomFilter.hash_function word % bf.size = j)) := by
  have hidx : BloomFilter.hash_function word % bf.size < bf.bit_vector.length := by
    rw [hl]; exact Nat.mod_lt _ hs
  refine ⟨{ bf with
    bit_vector := bf.bit_vector.set (BloomFilter.hash_function word % bf.size) true },
    ?_, rfl, ?_, ?_⟩
  · unfold BloomFilter.insert
    rw [if_neg (by omega)]
  · show (bf.bit_vector.set _ true).length = bf.size
    rw [List.length_set, hl]
  · intro j
    exact getD_set_true bf.bit_vector _ j hidx

/-- The filter after the insert phase: the size stays, no bit is cleared, and the bit of every
inserted word is true. -/
theorem insertAll_sets_bits (words : List String) :
    ∀ bf : BloomFilter, 0 < bf.size → bf.bit_vector.length = bf.size →
      ∃ bf1, insertAll bf words = some bf1 ∧ bf1.size = bf.size ∧
        bf1.bit_vector.length = bf.size ∧
        (∀ j, bf.bit_vector.getD j false = true → bf1.bit_vector.getD j false = true) ∧
        ∀ w ∈ words,
          bf1.bit_vector.getD (BloomFilter.hash_function w % bf.size) false = true := by
  induction words with
  | nil =>
    intro bf _ hl
    exact ⟨bf, rfl, rfl, hl, fun _ h => h, fun w hw => by cases hw⟩
  | cons word rest ih =>
    intro bf hs hl
    obtain ⟨bf1, h1, hs1, hl1, hbits⟩ := BloomFilter.insert_sets_bit bf word hs hl
    obtain ⟨bf2, h2, hs2, hl2, hmono, hset⟩ := ih bf1 (by omega) (by omega)
    refine ⟨bf2, ?_, by omega, by omega, ?_, ?_⟩
    · rw [insertAll, h1]
      exact h2
    · intro j hj
      apply hmono
      rw [hbits, hj]
      rfl
    · intro w hw
      rcases List.mem_cons.1 hw with e | hw1
      · subst e
        apply hmono
        rw [hbits]
        simp
      · have := hset w hw1
        rw [hs1] at this
        exact this

/-- The kernel over a list of work items, for a buffer that is not empty. -/
theorem runKernel_eq (hamletVector : List String) (bfBuf : List Bool) (count : List Int)
    (hb : 0 < bfBuf.length) (items : List Nat) :
    runKernel hamletVector bfBuf count items
      = some (items.map (fun i =>
          if bfBuf.getD (hash_function (hamletVector.getD i "") % bfBuf.length) false
          then toInt (count.getD i 0 + 1) else count.getD i 0)) := by
  induction items with
  | nil => rfl
  | cons i rest ih =>
    rw [runKernel, ih]
    unfold word_count_kernel
    rw [if_neg (by omega)]
    rfl

/-- The kernel on a buffer that holds the bits of the filter after the insert phase, which is
what `get_buffer` is written to hand over: for every positive `size`, with `count` all zero, the
kernel returns one count for each token, `count[i]` is 1 when the bit of the filter at
`hash_function(token_i) % size` is true and 0 when it is false, and `count[i]` is 1 for every
token that is a word of the dictionary. -/
theorem kernel_counts_of_bits (size : Nat) (dictionary hamletVector : List String)
    (hs : 0 < size) :
    ∃ bf count, insertAll (BloomFilter.new size) dictionary = some bf ∧
      bf.size = size ∧ bf.bit_vector.length = size ∧
      runKernel hamletVector bf.bit_vector (List.replicate hamletVector.length 0)
        (List.range hamletVector.length) = some count ∧
      count.length = hamletVector.length ∧
      ∀ i, i < hamletVector.length →
        count[i]? = some (if bf.bit_vector.getD
            (BloomFilter.hash_function (hamletVector.getD i "") % size) false
          then 1 else 0) ∧
        (hamletVector.getD i "" ∈ dictionary → count[i]? = some 1) := by
  obtain ⟨bf, hins, hsize, hlen, _, hset⟩ :=
    insertAll_sets_bits dictionary (BloomFilter.new size) hs
      (by show (List.replicate size false).length = size; exact List.length_replicate _ _)
  have hsize2 : bf.size = size := hsize
  have hlen2 : bf.bit_vector.length = size := hlen
  have hrun := runKernel_eq hamletVector bf.bit_vector
    (List.replicate hamletVector.length 0) (by omega) (List.range hamletVector.length)
  refine ⟨bf, _, hins, hsize2, hlen2, hrun, by simp, ?_⟩
  intro i hi
  have hval : (List.replicate hamletVector.length (0 : Int)).getD i 0 = 0 := by
    rw [List.getD_eq_getElem?_getD, List.getElem?_replicate]
    simp [hi]
  have hentry : (List.map (fun i =>
      if bf.bit_vector.getD
          (hash_function (hamletVector.getD i "") % bf.bit_vector.length) false
      then toInt ((List.replicate hamletVector.length (0 : Int)).getD i 0 + 1)
      else (List.replicate hamletVector.length (0 : Int)).getD i 0)
      (List.range hamletVector.length))[i]?
      = some (if bf.bit_vector.getD
            (BloomFilter.hash_function (hamletVector.getD i "") % size) false
          then 1 else 0) := by
    rw [List.getElem?_map, List.getElem?_range hi]
    show some (if bf.bit_vector.getD
        (BloomFilter.hash_function (hamletVector.getD i "") % bf.bit_vector.length) false
      then toInt ((List.replicate hamletVector.length (0 : Int)).getD i 0 + 1)
      else (List.replicate hamletVector.length (0 : Int)).getD i 0) = _
    rw [hval, hlen2]
    have h1 : toInt (0 + 1) = 1 := by decide
    rw [h1]
  refine ⟨hentry, ?_⟩
  intro hmem
  rw [hentry]
  have := hset _ hmem
  have hnew : (BloomFilter.new size).size = size := rfl
  rw [hnew] at this
  rw [this]
  rfl

end WcNew

/-! ## The tokens the specification asks for: facts -/

theorem toupper_eq (c : Char) : toupper c = c.toUpper := rfl

theorem upperCase_eq (line : String) : upperCase line = line.toUpper := by
  unfold upperCase String.toUpper
  rw [String.map_eq]
  have hf : toupper = Char.toUpper := funext toupper_eq
  rw [hf]
  rfl

theorem isUpper_iff (c : Char) : c.isUpper = true ↔ c ∈ upperLetters := by
  rw [mem_upperLetters]
  simp only [Char.isUpper, Bool.and_eq_true, decide_eq_true_eq]
  rfl

theorem keepsLine_eq (minimumWordLength : Nat) (token : String) :
    keepsLine minimumWordLength token
      = (decide (minimumWordLength ≤ token.length) && token.all Char.isUpper) := by
  have hf : (fun c => upperLetters.contains c) = Char.isUpper := by
    funext c
    rw [Bool.eq_iff_iff, isUpper_iff]
    simp
  unfold keepsLine allUpperLetters
  rw [String.all_eq, hf]
  rfl

theorem loadLines_eq_specTokens (minimumWordLength : Nat) (lines data : List String) :
    loadLines minimumWordLength lines data = data ++ specTokens minimumWordLength lines := by
  rw [loadLines_eq]
  unfold specTokens
  have h1 : upperCase = String.toUpper := funext upperCase_eq
  have h2 : keepsLine minimumWordLength
      = fun token => decide (minimumWordLength ≤ token.length) && token.all Char.isUpper :=
    funext (keepsLine_eq minimumWordLength)
  rw [h1, h2]

/-- The tokens asked of one line: the upper-cased line when it is long enough and all its
characters are letters, and nothing otherwise. -/
theorem specTokens_single (minimumWordLength : Nat) (line : String) :
    ((minimumWordLength ≤ line.length ∧ ∀ c ∈ line.toList, c.isAlpha = true) →
      specTokens minimumWordLength [line] = [line.toUpper]) ∧
    (¬ (minimumWordLength ≤ line.length ∧ ∀ c ∈ line.toList, c.isAlpha = true) →
      specTokens minimumWordLength [line] = []) := by
  have hk : keepsLine minimumWordLength (upperCase line) = true ↔
      (minimumWordLength ≤ line.length ∧ ∀ c ∈ line.toList, c.isAlpha = true) := by
    unfold keepsLine
    rw [Bool.and_eq_true, allUpperLetters_upperCase, decide_eq_true_eq, upperCase_length]
  have hs : specTokens minimumWordLength [line]
      = if keepsLine minimumWordLength (upperCase line) = true then [upperCase line] else [] := by
    have := loadLines_eq_specTokens minimumWordLength [line] []
    rw [List.nil_append] at this
    rw [← this]
    simp only [loadLines, List.nil_append]
  constructor
  · intro h
    rw [hs, if_pos (hk.2 h), upperCase_eq]
  · intro h
    rw [hs, if_neg (fun hkeep => h (hk.1 hkeep))]

/-! ## The probability of the specification: facts -/

/-- The probability of the specification lies in `[0, 1]` and does not decrease with the number
of inserts. -/
theorem specProbability_mono (numBits numHashFuncs n : Nat) (hb : 0 < numBits) :
    0 ≤ specProbability numBits numHashFuncs n ∧ specProbability numBits numHashFuncs n ≤ 1 ∧
    specProbability numBits numHashFuncs n ≤ specProbability numBits numHashFuncs (n + 1) := by
  obtain ⟨h0, h1⟩ := BloomFilter.base_bounds numBits hb
  obtain ⟨hin0, hin1⟩ := BloomFilter.inner_bounds numBits (numHashFuncs * n) hb
  have hle : numHashFuncs * n ≤ numHashFuncs * (n + 1) := Nat.mul_le_mul_left _ (by omega)
  have hpow : (1 - 1 / (numBits : ℚ)) ^ (numHashFuncs * (n + 1))
      ≤ (1 - 1 / (numBits : ℚ)) ^ (numHashFuncs * n) :=
    pow_le_pow_of_le_one h0 h1 hle
  unfold specProbability
  exact ⟨pow_nonneg hin0 _, pow_le_one₀ hin0 hin1, pow_le_pow_left₀ hin0 (by linarith) _⟩

/-- The `size_t` exponent of `prob` before and after `numInserts++`, for a counter `n` that an
`int` holds and a product `numHashFuncs * (n + 1)` of at most `2 ^ 63`: before it is the product
`numHashFuncs * n`; after it is not smaller, also when the counter wraps at the largest `int`;
and below the largest `int` it is the product `numHashFuncs * (n + 1)`. -/
theorem exponent_step (k n : Nat) (hk : 0 < k) (hi : n ≤ 2 ^ 31 - 1)
    (hf : k * (n + 1) ≤ 2 ^ 63) :
    sizeMul k (toSizeT (n : Int)) = k * n ∧
    k * n ≤ sizeMul k (toSizeT (toInt ((n : Int) + 1))) ∧
    (n < 2 ^ 31 - 1 → toInt ((n : Int) + 1) = ((n + 1 : Nat) : Int) ∧
      sizeMul k (toSizeT (toInt ((n : Int) + 1))) = k * (n + 1)) := by
  have hP : k * n ≤ k * (n + 1) := Nat.mul_le_mul_left _ (by omega)
  have hn : toSizeT (n : Int) = n := by
    rw [toSizeT_natCast]
    exact Nat.mod_eq_of_lt (by omega)
  have e0 : sizeMul k (toSizeT (n : Int)) = k * n := by
    rw [hn]
    unfold sizeMul SIZE_T_MOD
    exact Nat.mod_eq_of_lt (by omega)
  have hlow : n < 2 ^ 31 - 1 → toInt ((n : Int) + 1) = ((n + 1 : Nat) : Int) ∧
      sizeMul k (toSizeT (toInt ((n : Int) + 1))) = k * (n + 1) := by
    intro hlt
    have ht : toInt ((n : Int) + 1) = ((n + 1 : Nat) : Int) := by
      unfold toInt
      push_cast
      omega
    refine ⟨ht, ?_⟩
    rw [ht, toSizeT_natCast, Nat.mod_eq_of_lt (by omega)]
    unfold sizeMul SIZE_T_MOD
    exact Nat.mod_eq_of_lt (by omega)
  refine ⟨e0, ?_, hlow⟩
  by_cases hlt : n < 2 ^ 31 - 1
  · rw [(hlow hlt).2]
    exact hP
  · have hmax : n = 2 ^ 31 - 1 := by omega
    subst hmax
    have ht : toSizeT (toInt (((2 ^ 31 - 1 : Nat) : Int) + 1)) = 2 ^ 64 - 2 ^ 31 := by decide
    rw [ht]
    unfold sizeMul SIZE_T_MOD
    have hf2 : k * 2147483648 ≤ 9223372036854775808 := hf
    have key : k * 18446744071562067968
        = (18446744073709551616 - k * 2147483648) + 18446744073709551616 * (k - 1) := by
      omega
    show k * 2147483647 ≤ k * 18446744071562067968 % 18446744073709551616
    rw [key, Nat.add_mul_mod_self_left, Nat.mod_eq_of_lt (by omega)]
    omega

/-! ## The member functions as functions on the object: facts -/

namespace Stateful

theorem hashF1_frame (L : HashLib) (word : String) (bf : BloomFilter) :
    hashF1 L word bf = (bf.hashF1 L word).map (fun hash => (hash, bf)) := by
  unfold hashF1 BloomFilter.hashF1
  by_cases h : bf.numBits = 0
  · rw [if_pos h, if_pos h]; rfl
  · rw [if_neg h, if_neg h]; rfl

theorem hashF2_frame (L : HashLib) (word : String) (bf : BloomFilter) :
    hashF2 L word bf = (bf.hashF2 L word).map (fun hash => (hash, bf)) := by
  unfold hashF2 BloomFilter.hashF2
  by_cases h : bf.numBits = 0
  · rw [if_pos h, if_pos h]; rfl
  · rw [if_neg h, if_neg h]; rfl

/-- The call of `getHashes` leaves the object as it found it, and returns the vector. -/
theorem getHashes_frame (L : HashLib) (word : String) (bf : BloomFilter) :
    getHashes L word bf = (bf.getHashes L word).map (fun hashes => (hashes, bf)) := by
  unfold getHashes BloomFilter.getHashes
  rw [hashF1_frame]
  cases h1 : bf.hashF1 L word with
  | none => rfl
  | some hash1 =>
    simp only [Option.map_some']
    rw [hashF2_frame]
    cases h2 : bf.hashF2 L word with
    | none => rfl
    | some hash2 => rfl

/-- The loop of `search` leaves the object as it found it, whatever the bits are. -/
theorem searchLoop_frame (hashes : List Nat) (bf : BloomFilter) :
    searchLoop hashes bf = (BloomFilter.searchLoop bf.data hashes, bf) := by
  induction hashes with
  | nil => rfl
  | cons hash rest ih =>
    unfold searchLoop BloomFilter.searchLoop readBit
    cases hbit : bf.data.test hash with
    | false => rfl
    | true => exact ih

/-- The call of `search` leaves the object as it found it, and returns what the function
`BloomFilter.search` computes. -/
theorem search_frame (L : HashLib) (element : String) (bf : BloomFilter) :
    search L element bf = (bf.search L element).map (fun r => (r, bf)) := by
  unfold search BloomFilter.search
  rw [getHashes_frame]
  cases hg : bf.getHashes L element with
  | none => rfl
  | some hashes =>
    simp only [Option.map_some']
    rw [searchLoop_frame]
    cases hl : BloomFilter.searchLoop bf.data hashes with
    | false => rfl
    | true => rfl

/-- The loop of `insert` changes `data` and `collisions` as `BloomFilter.insertLoop` computes
them, and nothing else. -/
theorem insertLoop_effect (hashes : List Nat) (bf : BloomFilter) :
    insertLoop hashes bf
      = { bf with
          data := (BloomFilter.insertLoop hashes bf.data bf.collisions).1
          collisions := (BloomFilter.insertLoop hashes bf.data bf.collisions).2 } := by
  induction hashes generalizing bf with
  | nil => rfl
  | cons hash rest ih =>
    unfold insertLoop BloomFilter.insertLoop readBit
    cases hbit : bf.data.test hash with
    | false =>
      simp only [Bool.false_eq_true, if_false]
      rw [ih]
      rfl
    | true =>
      simp only [if_true]
      rw [ih]
      rfl

/-- The call of `insert` leaves the object that `BloomFilter.insert` computes. -/
theorem insert_effect_eq (L : HashLib) (element : String) (bf : BloomFilter) :
    insert L element bf = (bf.insert L element).map (fun bf1 => ((), bf1)) := by
  unfold insert BloomFilter.insert
  rw [getHashes_frame]
  cases hg : bf.getHashes L element with
  | none => rfl
  | some hashes =>
    simp only [Option.map_some']
    rw [insertLoop_effect]

/-- A sequence of calls without an `insert` leaves the object as it found it. -/
theorem runOps_frame (L : HashLib) (bf : BloomFilter) (hb : 0 < bf.numBits)
    (ops : List BloomFilter.Op) (hops : ∀ op ∈ ops, op.isInsert = false) :
    runOps L bf ops = some bf := by
  induction ops with
  | nil => rfl
  | cons op rest ih =>
    have hrest : ∀ o ∈ rest, o.isInsert = false := fun o ho => hops o (List.mem_cons_of_mem _ ho)
    have hop := hops op (List.mem_cons_self _ _)
    have hstep : step L bf op = some bf := by
      cases op with
      | insert element => cases hop
      | search element =>
        simp only [step]
        rw [search_frame]
        rcases BloomFilter.search_cases L bf element hb with hs | hs <;> rw [hs] <;> rfl
      | get_collisions => rfl
    rw [runOps, hstep]
    exact ih hrest

end Stateful

/-! ## The claims -/

open BloomFilter

/-- C1. No false negatives. For every filter with `numBits > 0` (the constructed
`new numBits numHashFuncs` among them), every finite sequence `words` of insert calls and every
`x` inserted somewhere in it, the inserts all return, and the following `search x` returns a value,
which is the probability `prob` of the filter reached and is different from `-1`. The result is a
function of the filter and the word, so repeating the run repeats it. -/
theorem no_false_negatives (L : HashLib) (bf : BloomFilter) (hb : 0 < bf.numBits)
    (words : List String) (x : String) (hx : x ∈ words) :
    ∃ bf1 p, insertAll L bf words = some bf1 ∧ bf1.search L x = some p ∧
      p = bf1.prob ∧ p ≠ -1 := by
  obtain ⟨bf1, h1, hnb, hnh, _, hset⟩ := insertAll_spec L words bf hb
  obtain ⟨hashes, hg⟩ := getHashes_isSome L bf x hb
  have hg1 : bf1.getHashes L x = some hashes := by
    rw [getHashes_congr L bf1 bf x hnb hnh]; exact hg
  have hloop : searchLoop bf1.data hashes = true :=
    (searchLoop_eq_true bf1.data hashes).2 (hset x hx hashes hg)
  refine ⟨bf1, bf1.prob, h1, ?_, rfl, prob_ne_absent bf1 (by omega)⟩
  rw [search_pos L bf1 x hashes hg1, hloop]
  rfl

/-- Witness of C1: two words inserted into the filter constructed with 10 bits and 2 hash
functions, then a search of the second. -/
theorem no_false_negatives_witness :
    0 < (BloomFilter.new 10 2).numBits ∧ "TO" ∈ ["HAMLET", "TO"] ∧
    ∃ bf1 p, insertAll sampleHashLib (BloomFilter.new 10 2) ["HAMLET", "TO"] = some bf1 ∧
      bf1.search sampleHashLib "TO" = some p ∧ p = bf1.prob ∧ p ≠ -1 :=
  ⟨by decide, by decide,
    no_false_negatives sampleHashLib (BloomFilter.new 10 2) (by decide) ["HAMLET", "TO"] "TO"
      (by decide)⟩

/-- C4. For every filter with `numBits > 0` and every element, `search` returns a value; the value
is `-1` if and only if one of the `numHashFuncs` positions that `getHashes` derives has its bit
false, and when every derived position is true the value is `prob`, which is not `-1`. The
positions are the ones `insert` sets: after `insert` of the element exactly they are added to the
true bits. -/
theorem search_absent_iff (L : HashLib) (bf : BloomFilter) (element : String)
    (hb : 0 < bf.numBits) :
    ∃ hashes r, bf.getHashes L element = some hashes ∧ hashes.length = bf.numHashFuncs ∧
      bf.search L element = some r ∧
      (r = -1 ↔ ∃ pos ∈ hashes, bf.data.test pos = false) ∧
      ((∀ pos ∈ hashes, bf.data.test pos = true) → r = bf.prob ∧ r ≠ -1) ∧
      ∃ bf1, bf.insert L element = some bf1 ∧
        ∀ j, bf1.data.test j = (bf.data.test j || decide (j ∈ hashes)) := by
  obtain ⟨hashes, hg⟩ := getHashes_isSome L bf element hb
  obtain ⟨bf1, hins⟩ := insert_isSome L bf element hb
  have hlast : ∃ bf1, bf.insert L element = some bf1 ∧
      ∀ j, bf1.data.test j = (bf.data.test j || decide (j ∈ hashes)) := by
    obtain ⟨_, _, hashes1, hg1, hbits⟩ := insert_spec L bf bf1 element hins
    rw [hg] at hg1
    cases hg1
    exact ⟨bf1, hins, hbits⟩
  have hne := prob_ne_absent bf hb
  by_cases hall : ∀ pos ∈ hashes, bf.data.test pos = true
  · have hloop := (searchLoop_eq_true bf.data hashes).2 hall
    refine ⟨hashes, bf.prob, hg, getHashes_length L bf element hashes hg, ?_, ?_, ?_, hlast⟩
    · rw [search_pos L bf element hashes hg, hloop]; rfl
    · constructor
      · intro h; exact absurd h hne
      · rintro ⟨pos, hpos, hf⟩
        rw [hall pos hpos] at hf
        cases hf
    · intro _; exact ⟨rfl, hne⟩
  · have hloop : searchLoop bf.data hashes = false := by
      cases hs : searchLoop bf.data hashes with
      | false => rfl
      | true => exact absurd ((searchLoop_eq_true bf.data hashes).1 hs) hall
    refine ⟨hashes, -1, hg, getHashes_length L bf element hashes hg, ?_, ?_, ?_, hlast⟩
    · rw [search_pos L bf element hashes hg, hloop]; rfl
    · constructor
      · intro _
        by_contra hcon
        apply hall
        intro pos hpos
        cases ht : bf.data.test pos with
        | true => rfl
        | false => exact absurd ⟨pos, hpos, ht⟩ hcon
      · intro _; rfl
    · intro h; exact absurd h hall

/-- Witness of C4: the search of a word in the filter constructed with 10 bits and 2 hash
functions. -/
theorem search_absent_iff_witness :
    0 < (BloomFilter.new 10 2).numBits ∧
    ∃ hashes r, (BloomFilter.new 10 2).getHashes sampleHashLib "HAMLET" = some hashes ∧
      hashes.length = (BloomFilter.new 10 2).numHashFuncs ∧
      (BloomFilter.new 10 2).search sampleHashLib "HAMLET" = some r ∧
      (r = -1 ↔ ∃ pos ∈ hashes, (BloomFilter.new 10 2).data.test pos = false) ∧
      ((∀ pos ∈ hashes, (BloomFilter.new 10 2).data.test pos = true) →
        r = (BloomFilter.new 10 2).prob ∧ r ≠ -1) ∧
      ∃ bf1, (BloomFilter.new 10 2).insert sampleHashLib "HAMLET" = some bf1 ∧
        ∀ j, bf1.data.test j
          = ((BloomFilter.new 10 2).data.test j || decide (j ∈ hashes)) :=
  ⟨by decide, search_absent_iff sampleHashLib (BloomFilter.new 10 2) "HAMLET" (by decide)⟩

/-- C2, evaluated where it fails. The filter constructed with the defaults of `main` (10 bits,
1 hash function) has `numInserts = 0` and `collisions = 0`, but its bits 1 and 3 are true: the
bits are the binary digits of 10. The filter constructed with 1 bit has bit 0 true, so on it,
before any insert, `search` of every word under every hash library returns the probability 0 and
not `-1`. -/
theorem constructor_bits_not_clear :
    (BloomFilter.new 10 1).numInserts = 0 ∧ (BloomFilter.new 10 1).collisions = 0 ∧
    (BloomFilter.new 10 1).data.test 1 = true ∧ (BloomFilter.new 10 1).data.test 3 = true ∧
    (BloomFilter.new 1 1).data.test 0 = true ∧
    ∀ (L : HashLib) (word : String), (BloomFilter.new 1 1).search L word = some 0 := by
  refine ⟨rfl, rfl, by decide, by decide, by decide, ?_⟩
  intro L word
  have hg := getHashes_pos L (BloomFilter.new 1 1) word (by decide)
  rw [search_pos L _ word _ hg]
  have hloop : searchLoop (BloomFilter.new 1 1).data
      ((List.range (BloomFilter.new 1 1).numHashFuncs).map
        (hashAt (BloomFilter.new 1 1).numBits
          (toInt ((L.strHashMD5 word % SIZE_T_MOD % (BloomFilter.new 1 1).numBits : Nat) : Int))
          (toInt ((L.strHashSHA256 word % SIZE_T_MOD % (BloomFilter.new 1 1).numBits : Nat)
            : Int)))) = true := by
    rw [searchLoop_eq_true]
    intro pos hpos
    rw [List.mem_map] at hpos
    obtain ⟨i, _, hi⟩ := hpos
    have hlt := hashAt_lt (BloomFilter.new 1 1).numBits
      (toInt ((L.strHashMD5 word % SIZE_T_MOD % (BloomFilter.new 1 1).numBits : Nat) : Int))
      (toInt ((L.strHashSHA256 word % SIZE_T_MOD % (BloomFilter.new 1 1).numBits : Nat) : Int))
      i (by decide)
    rw [hi] at hlt
    have hp : pos = 0 := by
      have : (BloomFilter.new 1 1).numBits = 1 := rfl
      omega
    rw [hp]
    decide
  rw [hloop]
  simp [BloomFilter.prob, BloomFilter.new, sizeMul, toSizeT]

/-- C8. Bit monotonicity. For every filter with `numBits > 0` and every operation (`insert` of an
element, `search` of an element, `get_collisions`), the operation returns, every bit that is true
before it is true after it, and the size of the bit set and `numBits` are what they were. -/
theorem bits_never_cleared (L : HashLib) (bf : BloomFilter) (op : Op) (hb : 0 < bf.numBits) :
    ∃ bf1, bf.step L op = some bf1 ∧
      (∀ j, bf.data.test j = true → bf1.data.test j = true) ∧
      bf1.data.size = bf.data.size ∧ bf1.numBits = bf.numBits := by
  cases op with
  | insert element =>
    obtain ⟨bf1, h1⟩ := insert_isSome L bf element hb
    obtain ⟨hnb, _, hashes, _, hbits⟩ := insert_spec L bf bf1 element h1
    refine ⟨bf1, h1, ?_, rfl, hnb⟩
    intro j hj
    rw [hbits, hj]
    rfl
  | search element =>
    obtain ⟨hashes, hg⟩ := getHashes_isSome L bf element hb
    refine ⟨bf, ?_, fun _ h => h, rfl, rfl⟩
    simp only [step]
    rw [search_pos L bf element hashes hg]
    split <;> rfl
  | get_collisions => exact ⟨bf, rfl, fun _ h => h, rfl, rfl⟩

/-- Witness of C8: an insert into the filter constructed with 10 bits and 2 hash functions. -/
theorem bits_never_cleared_witness :
    0 < (BloomFilter.new 10 2).numBits ∧
    ∃ bf1, (BloomFilter.new 10 2).step sampleHashLib (Op.insert "HAMLET") = some bf1 ∧
      (∀ j, (BloomFilter.new 10 2).data.test j = true → bf1.data.test j = true) ∧
      bf1.data.size = (BloomFilter.new 10 2).data.size ∧
      bf1.numBits = (BloomFilter.new 10 2).numBits :=
  ⟨by decide, bits_never_cleared sampleHashLib (BloomFilter.new 10 2) (Op.insert "HAMLET")
    (by decide)⟩

/-- C10. Boundary `numBits = 1`. For every filter with one bit and `numHashFuncs > 0`, the
derived positions of every element are `numHashFuncs` times the position 0, and after one insert
of any element `e` the search of every element `x` returns a value different from `-1`. -/
theorem single_bit_filter (L : HashLib) (bf : BloomFilter) (e x : String)
    (h1 : bf.numBits = 1) (hk : 0 < bf.numHashFuncs) :
    (∃ hashes, bf.getHashes L x = some hashes ∧ hashes.length = bf.numHashFuncs ∧
      ∀ pos ∈ hashes, pos = 0) ∧
    ∃ bf1 p, bf.insert L e = some bf1 ∧ bf1.search L x = some p ∧ p ≠ -1 := by
  constructor
  · refine ⟨_, getHashes_one L bf x h1, by simp, ?_⟩
    intro pos hpos
    exact (List.mem_replicate.1 hpos).2
  · obtain ⟨bf1, hins⟩ := insert_isSome L bf e (by omega)
    obtain ⟨hnb, hnh, hashes, hg, hbits⟩ := insert_spec L bf bf1 e hins
    rw [getHashes_one L bf e h1] at hg
    cases hg
    have hbit0 : bf1.data.test 0 = true := by
      rw [hbits]
      have : (0 : Nat) ∈ List.replicate bf.numHashFuncs 0 :=
        List.mem_replicate.2 ⟨by omega, rfl⟩
      simp [this]
    have hgx := getHashes_one L bf1 x (by omega)
    have hloop : searchLoop bf1.data (List.replicate bf1.numHashFuncs 0) = true := by
      rw [searchLoop_eq_true]
      intro pos hpos
      rw [(List.mem_replicate.1 hpos).2]
      exact hbit0
    refine ⟨bf1, bf1.prob, hins, ?_, prob_ne_absent bf1 (by omega)⟩
    rw [search_pos L bf1 x _ hgx, hloop]
    rfl

/-- Witness of C10: the filter constructed with 1 bit and 3 hash functions. -/
theorem single_bit_filter_witness :
    ((BloomFilter.new 1 3).numBits = 1 ∧ 0 < (BloomFilter.new 1 3).numHashFuncs) ∧
    (∃ hashes, (BloomFilter.new 1 3).getHashes sampleHashLib "TO" = some hashes ∧
      hashes.length = (BloomFilter.new 1 3).numHashFuncs ∧ ∀ pos ∈ hashes, pos = 0) ∧
    ∃ bf1 p, (BloomFilter.new 1 3).insert sampleHashLib "HAMLET" = some bf1 ∧
      bf1.search sampleHashLib "TO" = some p ∧ p ≠ -1 :=
  ⟨by decide, single_bit_filter sampleHashLib (BloomFilter.new 1 3) "HAMLET" "TO" (by decide)
    (by decide)⟩

/-- Counterexample to C5. Construct the filter with one bit and one hash function and insert
2147483647 words: both counters stand at the largest `int`. The next insert finds its one position
true, and it does not increase `numInserts` by 1 nor `collisions` by 1: both `int` counters wrap
to the smallest `int`. -/
theorem insert_effect_counterexample :
    insertAll sampleHashLib (BloomFilter.new 1 1) (List.replicate 2147483647 "A")
      = some ⟨1, 1, ⟨1⟩, 2147483647, 2147483647⟩ ∧
    (⟨1, 1, ⟨1⟩, 2147483647, 2147483647⟩ : BloomFilter).InRange ∧
    BloomFilter.insert sampleHashLib ⟨1, 1, ⟨1⟩, 2147483647, 2147483647⟩ "A"
      = some ⟨1, 1, ⟨1⟩, -2147483648, -2147483648⟩ ∧
    (-2147483648 : Int) ≠ 2147483647 + 1 := by
  refine ⟨?_, by decide, by decide, by decide⟩
  rw [insertAll_one_bit sampleHashLib _ (BloomFilter.new 1 1) rfl (by decide) (by decide),
    List.length_replicate]
  decide

/-- C5 as amended. For every filter with `numBits > 0` whose members are in the range of their
types, `insert` returns, and with `hashes` the derived positions: every position of `hashes` is
true afterwards, no bit outside `hashes` changes, `numBits` and `numHashFuncs` stay; when
`numInserts` is below the largest `int` it increases by exactly 1; and when `collisions` plus the
number of positions already true when processed (in order, with multiplicity) does not exceed the
largest `int`, `collisions` increases by exactly that number. -/
theorem insert_effect (L : HashLib) (bf : BloomFilter) (element : String)
    (hb : 0 < bf.numBits) (hr : bf.InRange) :
    ∃ hashes bf1, bf.getHashes L element = some hashes ∧ bf.insert L element = some bf1 ∧
      (∀ pos ∈ hashes, bf1.data.test pos = true) ∧
      (∀ j, j ∉ hashes → bf1.data.test j = bf.data.test j) ∧
      bf1.numBits = bf.numBits ∧ bf1.numHashFuncs = bf.numHashFuncs ∧
      (bf.numInserts < INT_MAX → bf1.numInserts = bf.numInserts + 1) ∧
      (bf.collisions + alreadySet bf.data hashes ≤ INT_MAX →
        bf1.collisions = bf.collisions + alreadySet bf.data hashes) := by
  obtain ⟨_, _, hn1, hn2, hc1, hc2⟩ := hr
  obtain ⟨hashes, hg⟩ := getHashes_isSome L bf element hb
  refine ⟨hashes, _, hg, insert_pos L bf element hashes hg, ?_, ?_, rfl, rfl, ?_, ?_⟩
  · intro pos hpos
    simp [insertLoop_test, hpos]
  · intro j hj
    simp [insertLoop_test, hj]
  · intro hlt
    exact toInt_of_range _ (by omega) (by omega)
  · intro hle
    show (insertLoop hashes bf.data bf.collisions).2 = _
    rw [insertLoop_collisions_wrap hashes bf.data bf.collisions hc1 hc2]
    exact toInt_of_range _ (by omega) hle

/-- Witness of the amended C5: an insert into the filter constructed with 10 bits and 2 hash
functions. -/
theorem insert_effect_witness :
    (0 < (BloomFilter.new 10 2).numBits ∧ (BloomFilter.new 10 2).InRange) ∧
    ∃ hashes bf1, (BloomFilter.new 10 2).getHashes sampleHashLib "HAMLET" = some hashes ∧
      (BloomFilter.new 10 2).insert sampleHashLib "HAMLET" = some bf1 ∧
      (∀ pos ∈ hashes, bf1.data.test pos = true) ∧
      (∀ j, j ∉ hashes → bf1.data.test j = (BloomFilter.new 10 2).data.test j) ∧
      bf1.numBits = (BloomFilter.new 10 2).numBits ∧
      bf1.numHashFuncs = (BloomFilter.new 10 2).numHashFuncs ∧
      ((BloomFilter.new 10 2).numInserts < INT_MAX →
        bf1.numInserts = (BloomFilter.new 10 2).numInserts + 1) ∧
      ((BloomFilter.new 10 2).collisions
          + alreadySet (BloomFilter.new 10 2).data hashes ≤ INT_MAX →
        bf1.collisions = (BloomFilter.new 10 2).collisions
          + alreadySet (BloomFilter.new 10 2).data hashes) :=
  ⟨by decide, insert_effect sampleHashLib (BloomFilter.new 10 2) "HAMLET" (by decide)
    (by decide)⟩

/-- Counterexample to C6. Construct the filter with 1 bit and 2147483647 hash functions (both
accepted by the `int` options of `main`) and insert a word twice. The first insert leaves
`collisions` at 2147483647; the second does not increase it by `numHashFuncs`: the `int` counter
wraps to `-2`. -/
theorem second_insert_counterexample :
    (BloomFilter.new 1 2147483647).insert sampleHashLib "A"
      = some ⟨1, 2147483647, ⟨1⟩, 1, 2147483647⟩ ∧
    BloomFilter.insert sampleHashLib ⟨1, 2147483647, ⟨1⟩, 1, 2147483647⟩ "A"
      = some ⟨1, 2147483647, ⟨1⟩, 2, -2⟩ ∧
    (-2 : Int) ≠ 2147483647 + 2147483647 := by
  refine ⟨?_, ?_, by decide⟩
  · have hg := getHashes_one sampleHashLib (BloomFilter.new 1 2147483647) "A" rfl
    rw [insert_all_set sampleHashLib _ "A" _ hg
      (fun pos hpos => by rw [(List.mem_replicate.1 hpos).2]; decide) (by decide) (by decide)]
    decide
  · have hg := getHashes_one sampleHashLib ⟨1, 2147483647, ⟨1⟩, 1, 2147483647⟩ "A" rfl
    rw [insert_all_set sampleHashLib _ "A" _ hg
      (fun pos hpos => by rw [(List.mem_replicate.1 hpos).2]; decide) (by decide) (by decide)]
    decide

/-- C6 as amended. For every `numBits > 0`, every `numHashFuncs` and every element `x`, both
inserts of `x` into the constructed filter return; the second one increases `numInserts` from 1 to
2, and it increases `collisions` by exactly `numHashFuncs` when that sum does not exceed the
largest `int`, which is so whenever `2 * numHashFuncs` does not exceed it. More generally, for
every filter with `numBits > 0` and members in range whose derived positions for `x` are all
true, an insert of `x` increases `numInserts` by exactly 1 when it is below the largest `int`, and
`collisions` by exactly `numHashFuncs` when the sum does not exceed the largest `int`. -/
theorem second_insert_collisions (L : HashLib) (numBits numHashFuncs : Nat) (x : String)
    (hb : 0 < numBits) :
    (∃ bf1 bf2, (BloomFilter.new numBits numHashFuncs).insert L x = some bf1 ∧
      bf1.insert L x = some bf2 ∧ bf1.numInserts = 1 ∧ bf2.numInserts = bf1.numInserts + 1 ∧
      (bf1.collisions + numHashFuncs ≤ INT_MAX →
        bf2.collisions = bf1.collisions + numHashFuncs) ∧
      (2 * (numHashFuncs : Int) ≤ INT_MAX → bf1.collisions + numHashFuncs ≤ INT_MAX)) ∧
    ∀ bf : BloomFilter, 0 < bf.numBits → bf.InRange →
      (∀ hashes, bf.getHashes L x = some hashes → ∀ pos ∈ hashes, bf.data.test pos = true) →
      ∃ bf2, bf.insert L x = some bf2 ∧
        (bf.numInserts < INT_MAX → bf2.numInserts = bf.numInserts + 1) ∧
        (bf.collisions + bf.numHashFuncs ≤ INT_MAX →
          bf2.collisions = bf.collisions + bf.numHashFuncs) := by
  have general : ∀ bf : BloomFilter, 0 < bf.numBits → bf.InRange →
      (∀ hashes, bf.getHashes L x = some hashes → ∀ pos ∈ hashes, bf.data.test pos = true) →
      ∃ bf2, bf.insert L x = some bf2 ∧
        (bf.numInserts < INT_MAX → bf2.numInserts = bf.numInserts + 1) ∧
        (bf.collisions + bf.numHashFuncs ≤ INT_MAX →
          bf2.collisions = bf.collisions + bf.numHashFuncs) := by
    intro bf hbf hr hall
    obtain ⟨_, _, hn1, hn2, hc1, hc2⟩ := hr
    obtain ⟨hashes, hg⟩ := getHashes_isSome L bf x hbf
    refine ⟨_, insert_all_set L bf x hashes hg (hall hashes hg) hc1 hc2, ?_, ?_⟩
    · intro hlt
      exact toInt_of_range _ (by omega) (by omega)
    · intro hle
      exact toInt_of_range _ (by omega) hle
  refine ⟨?_, general⟩
  obtain ⟨hashes, hg⟩ := getHashes_isSome L (BloomFilter.new numBits numHashFuncs) x hb
  obtain ⟨bf1, hins1⟩ := insert_isSome L (BloomFilter.new numBits numHashFuncs) x hb
  obtain ⟨hnb, hnh, hashes1, hgA, hbits⟩ := insert_spec L _ bf1 x hins1
  rw [hg] at hgA
  cases hgA
  have hz1 : INT_MIN ≤ (BloomFilter.new numBits numHashFuncs).collisions := by
    show INT_MIN ≤ (0 : Int); decide
  have hz2 : (BloomFilter.new numBits numHashFuncs).collisions ≤ INT_MAX := by
    show (0 : Int) ≤ INT_MAX; decide
  obtain ⟨hn, hc⟩ := insert_counters L _ x hashes bf1 hg hins1 hz1 hz2
  have hnb1 : bf1.numBits = numBits := hnb
  have hnh1 : bf1.numHashFuncs = numHashFuncs := hnh
  have hn1 : bf1.numInserts = 1 := by
    rw [hn]; show toInt (0 + 1) = 1; decide
  have hc0 : bf1.collisions
      = toInt ((alreadySet (BloomFilter.new numBits numHashFuncs).data hashes : Nat) : Int) := by
    rw [hc]; simp [BloomFilter.new]
  have hrange := toInt_range
    ((alreadySet (BloomFilter.new numBits numHashFuncs).data hashes : Nat) : Int)
  have hg1 : bf1.getHashes L x = some hashes := by
    rw [getHashes_congr L bf1 _ x hnb hnh]; exact hg
  have hall : ∀ pos ∈ hashes, bf1.data.test pos = true := by
    intro pos hpos
    simp [hbits, hpos]
  have hins2 := insert_all_set L bf1 x hashes hg1 hall (by rw [hc0]; exact hrange.1)
    (by rw [hc0]; exact hrange.2)
  refine ⟨bf1, _, hins1, hins2, hn1, ?_, ?_, ?_⟩
  · show toInt (bf1.numInserts + 1) = bf1.numInserts + 1
    rw [hn1]; decide
  · intro hsum
    show toInt (bf1.collisions + bf1.numHashFuncs) = bf1.collisions + numHashFuncs
    rw [hnh1]
    have hlow : INT_MIN ≤ bf1.collisions := by rw [hc0]; exact hrange.1
    have hlo2 : INT_MIN ≤ bf1.collisions + (numHashFuncs : Int) := by
      have hk0 : (0 : Int) ≤ (numHashFuncs : Int) := Int.ofNat_nonneg _
      linarith
    exact toInt_of_range _ hlo2 hsum
  · intro h2
    have hlen : hashes.length = numHashFuncs := getHashes_length L _ x hashes hg
    have hle := alreadySet_le (BloomFilter.new numBits numHashFuncs).data hashes
    have hk : ((alreadySet (BloomFilter.new numBits numHashFuncs).data hashes : Nat) : Int)
        ≤ numHashFuncs := by
      rw [← hlen]; exact_mod_cast hle
    have hfit : toInt ((alreadySet (BloomFilter.new numBits numHashFuncs).data hashes : Nat) : Int)
        = ((alreadySet (BloomFilter.new numBits numHashFuncs).data hashes : Nat) : Int) := by
      apply toInt_of_range
      · unfold INT_MIN; omega
      · unfold INT_MAX at h2 ⊢; omega
    rw [hc0, hfit]
    unfold INT_MAX at h2 ⊢
    omega

/-- Witness of the amended C6: a word inserted twice into the filter constructed with 10 bits
and 2 hash functions, and an insert into a one-bit filter whose bit is true. -/
theorem second_insert_collisions_witness :
    0 < 10 ∧
    (∃ bf1 bf2, (BloomFilter.new 10 2).insert sampleHashLib "HAMLET" = some bf1 ∧
      bf1.insert sampleHashLib "HAMLET" = some bf2 ∧ bf1.numInserts = 1 ∧
      bf2.numInserts = bf1.numInserts + 1 ∧
      (bf1.collisions + ((2 : Nat) : Int) ≤ INT_MAX →
        bf2.collisions = bf1.collisions + ((2 : Nat) : Int)) ∧
      (2 * ((2 : Nat) : Int) ≤ INT_MAX → bf1.collisions + ((2 : Nat) : Int) ≤ INT_MAX)) ∧
    (0 < (⟨1, 3, ⟨1⟩, 5, 7⟩ : BloomFilter).numBits ∧ (⟨1, 3, ⟨1⟩, 5, 7⟩ : BloomFilter).InRange) ∧
    ∃ bf2, BloomFilter.insert sampleHashLib ⟨1, 3, ⟨1⟩, 5, 7⟩ "HAMLET" = some bf2 ∧
      ((5 : Int) < INT_MAX → bf2.numInserts = 5 + 1) ∧
      ((7 : Int) + ((3 : Nat) : Int) ≤ INT_MAX → bf2.collisions = 7 + ((3 : Nat) : Int)) :=
  ⟨by decide, (second_insert_collisions sampleHashLib 10 2 "HAMLET" (by decide)).1,
    by decide,
    (second_insert_collisions sampleHashLib 10 2 "HAMLET" (by decide)).2 ⟨1, 3, ⟨1⟩, 5, 7⟩
      (by decide) (by decide)
      (fun hashes hg pos hpos => by
        rw [getHashes_one sampleHashLib ⟨1, 3, ⟨1⟩, 5, 7⟩ "HAMLET" rfl] at hg
        cases hg
        rw [(List.mem_replicate.1 hpos).2]
        decide)⟩

/-- Counterexample to C7. With `numBits = 2 ^ 31 + 1`, one hash function and a library whose
first hash of the word is `2 ^ 31`, the derived position is 5, while `(hash1 + 0 * hash2) mod
numBits` over the integers is `2 ^ 31`: the value `2 ^ 31` does not fit the `int` that holds
`hash1`. With `numBits = 2 ^ 31 - 1`, `hash1 = 1`, `hash2 = 2 ^ 31 - 2` and `i = 2 ^ 34` the
position is 2147483636, while the formula over the integers gives 2147483640: the multiply-add
exceeds `2 ^ 64`. -/
theorem getHashes_formula_counterexample :
    (BloomFilter.new (2 ^ 31 + 1) 1).getHashes ⟨fun _ => 2 ^ 31, fun _ => 0⟩ "A" = some [5] ∧
    (2 ^ 31 % 2 ^ 64 % (2 ^ 31 + 1) + 0 * (0 % 2 ^ 64 % (2 ^ 31 + 1))) % (2 ^ 31 + 1) = 2 ^ 31 ∧
    (∃ hashes, (BloomFilter.new (2 ^ 31 - 1) (2 ^ 34 + 1)).getHashes
        ⟨fun _ => 1, fun _ => 2 ^ 31 - 2⟩ "A" = some hashes ∧
      hashes[2 ^ 34]? = some 2147483636) ∧
    (1 % 2 ^ 64 % (2 ^ 31 - 1) + 2 ^ 34 * ((2 ^ 31 - 2) % 2 ^ 64 % (2 ^ 31 - 1))) % (2 ^ 31 - 1)
      = 2147483640 := by
  refine ⟨by decide, by decide, ?_, by decide⟩
  refine ⟨_, getHashes_pos _ _ "A" (by decide), ?_⟩
  rw [List.getElem?_map, List.getElem?_range (by decide)]
  decide

/-- C7 as amended. For every filter with `0 < numBits ≤ 2 ^ 31` and `numHashFuncs ≤ 2 ^ 33` (every
pair of `int` values that `main` passes is such), every word and every `i < numHashFuncs`,
`getHashes` returns `numHashFuncs` positions and position `i` is `(hash1 + i * hash2) mod
numBits` over the natural numbers, with `hash1 = H1(word) mod numBits` and
`hash2 = H2(word) mod numBits`, `H1` and `H2` being the `size_t` values of the two library
hashes. -/
theorem getHashes_formula (L : HashLib) (bf : BloomFilter) (word : String)
    (hb : 0 < bf.numBits) (hb2 : bf.numBits ≤ 2 ^ 31) (hk : bf.numHashFuncs ≤ 2 ^ 33) :
    ∃ hashes, bf.getHashes L word = some hashes ∧ hashes.length = bf.numHashFuncs ∧
      ∀ i, i < bf.numHashFuncs →
        hashes[i]? = some ((L.strHashMD5 word % SIZE_T_MOD % bf.numBits
          + i * (L.strHashSHA256 word % SIZE_T_MOD % bf.numBits)) % bf.numBits) := by
  refine ⟨_, getHashes_pos L bf word hb, by simp, ?_⟩
  intro i hi
  rw [List.getElem?_map, List.getElem?_range hi]
  have h1 : L.strHashMD5 word % SIZE_T_MOD % bf.numBits < bf.numBits := Nat.mod_lt _ hb
  have h2 : L.strHashSHA256 word % SIZE_T_MOD % bf.numBits < bf.numBits := Nat.mod_lt _ hb
  generalize L.strHashMD5 word % SIZE_T_MOD % bf.numBits = a at h1
  generalize L.strHashSHA256 word % SIZE_T_MOD % bf.numBits = c at h2
  have key : hashAt bf.numBits (toInt (a : Int)) (toInt (c : Int)) i
      = (a + i * c) % bf.numBits := hashAt_small bf.numBits a c i (by omega) (by omega) (by omega)
  show some (hashAt bf.numBits (toInt (a : Int)) (toInt (c : Int)) i) = _
  rw [key]

/-- Witness of the amended C7: the filter constructed with 10 bits and 2 hash functions. -/
theorem getHashes_formula_witness :
    (0 < (BloomFilter.new 10 2).numBits ∧ (BloomFilter.new 10 2).numBits ≤ 2 ^ 31 ∧
      (BloomFilter.new 10 2).numHashFuncs ≤ 2 ^ 33) ∧
    ∃ hashes, (BloomFilter.new 10 2).getHashes sampleHashLib "HAMLET" = some hashes ∧
      hashes.length = (BloomFilter.new 10 2).numHashFuncs ∧
      ∀ i, i < (BloomFilter.new 10 2).numHashFuncs →
        hashes[i]? = some ((sampleHashLib.strHashMD5 "HAMLET" % SIZE_T_MOD
            % (BloomFilter.new 10 2).numBits
          + i * (sampleHashLib.strHashSHA256 "HAMLET" % SIZE_T_MOD
            % (BloomFilter.new 10 2).numBits)) % (BloomFilter.new 10 2).numBits) :=
  ⟨by decide, getHashes_formula sampleHashLib (BloomFilter.new 10 2) "HAMLET" (by decide)
    (by decide) (by decide)⟩

/-- C9. False-positive-probability monotonicity. The probability of the specification,
`p(n) = (1 - (1 - 1/numBits) ^ (numHashFuncs * n)) ^ numHashFuncs` in exact rational arithmetic,
lies in `[0, 1]` and satisfies `p(n) ≤ p(n + 1)` for every `numBits ≥ 1`, every `numHashFuncs`
and every `n ≥ 0`. For every filter with `numBits ≥ 1`, `numHashFuncs ≥ 1` and an `int` counter
`numInserts = n ≥ 0`, the value `prob` that `search` reports when all positions are set lies in
`[0, 1]`. It is `p(n)`, and it does not exceed the value reported after the next `insert` (which
is `p(n + 1)` while the counter does not wrap), in every state in which
`numHashFuncs * (n + 1) ≤ 2 ^ 63`. That bound holds in every execution: `n` inserts have run
`numHashFuncs * n` iterations of the loop of `getHashes`, and the `int` options of `main` give
products below `2 ^ 62`. Only beyond it would the `size_t` product `numHashFuncs * numInserts`
wrap. -/
theorem prob_monotone (L : HashLib) (bf : BloomFilter) (element : String) (n : Nat)
    (hb : 0 < bf.numBits) (hk : 0 < bf.numHashFuncs) (hn : bf.numInserts = n)
    (hi : bf.numInserts ≤ INT_MAX) :
    (∀ numBits numHashFuncs m : Nat, 0 < numBits →
      0 ≤ specProbability numBits numHashFuncs m ∧ specProbability numBits numHashFuncs m ≤ 1 ∧
      specProbability numBits numHashFuncs m ≤ specProbability numBits numHashFuncs (m + 1)) ∧
    (0 ≤ bf.prob ∧ bf.prob ≤ 1) ∧
    (∀ hashes, bf.getHashes L element = some hashes →
      (∀ pos ∈ hashes, bf.data.test pos = true) → bf.search L element = some bf.prob) ∧
    (bf.numHashFuncs * (n + 1) ≤ 2 ^ 63 →
      bf.prob = specProbability bf.numBits bf.numHashFuncs n ∧
      ∃ bf1, bf.insert L element = some bf1 ∧ bf.prob ≤ bf1.prob ∧
        (n < 2 ^ 31 - 1 → bf1.numInserts = ((n + 1 : Nat) : Int) ∧
          bf1.prob = specProbability bf.numBits bf.numHashFuncs (n + 1))) := by
  refine ⟨fun numBits numHashFuncs m h => specProbability_mono numBits numHashFuncs m h,
    prob_bounds bf hb, ?_, ?_⟩
  · intro hashes hg hall
    rw [search_pos L bf element hashes hg, (searchLoop_eq_true bf.data hashes).2 hall]
    rfl
  · intro hf
    have hin : n ≤ 2 ^ 31 - 1 := by
      rw [hn] at hi
      unfold INT_MAX at hi
      omega
    obtain ⟨e0, e1, e2⟩ := exponent_step bf.numHashFuncs n hk hin hf
    obtain ⟨hashes, hg⟩ := getHashes_isSome L bf element hb
    obtain ⟨h0, h1⟩ := base_bounds bf.numBits hb
    have hin0 := (inner_bounds bf.numBits (bf.numHashFuncs * n) hb).1
    have hp : bf.prob = specProbability bf.numBits bf.numHashFuncs n := by
      unfold BloomFilter.prob specProbability
      rw [hn, e0]
    refine ⟨hp, _, insert_pos L bf element hashes hg, ?_, ?_⟩
    · rw [hp]
      unfold BloomFilter.prob specProbability
      show _ ≤ (1 - (1 - 1 / (bf.numBits : ℚ))
        ^ sizeMul bf.numHashFuncs (toSizeT (toInt (bf.numInserts + 1)))) ^ bf.numHashFuncs
      rw [hn]
      have hpow : (1 - 1 / (bf.numBits : ℚ))
            ^ sizeMul bf.numHashFuncs (toSizeT (toInt ((n : Int) + 1)))
          ≤ (1 - 1 / (bf.numBits : ℚ)) ^ (bf.numHashFuncs * n) :=
        pow_le_pow_of_le_one h0 h1 e1
      exact pow_le_pow_left₀ hin0 (by linarith) _
    · intro hlt
      obtain ⟨ht, hs⟩ := e2 hlt
      constructor
      · show toInt (bf.numInserts + 1) = _
        rw [hn, ht]
      · unfold BloomFilter.prob specProbability
        show (1 - (1 - 1 / (bf.numBits : ℚ))
          ^ sizeMul bf.numHashFuncs (toSizeT (toInt (bf.numInserts + 1)))) ^ bf.numHashFuncs = _
        rw [hn, hs]

/-- Witness of C9: the filter with 10 bits and 3 hash functions after 4 inserts, all bits of the
searched word set. -/
theorem prob_monotone_witness :
    (0 < (⟨10, 3, ⟨1023⟩, 4, 0⟩ : BloomFilter).numBits ∧
      0 < (⟨10, 3, ⟨1023⟩, 4, 0⟩ : BloomFilter).numHashFuncs ∧
      (⟨10, 3, ⟨1023⟩, 4, 0⟩ : BloomFilter).numInserts = ((4 : Nat) : Int) ∧
      (⟨10, 3, ⟨1023⟩, 4, 0⟩ : BloomFilter).numInserts ≤ INT_MAX ∧
      (⟨10, 3, ⟨1023⟩, 4, 0⟩ : BloomFilter).numHashFuncs * (4 + 1) ≤ 2 ^ 63) ∧
    BloomFilter.prob ⟨10, 3, ⟨1023⟩, 4, 0⟩ = specProbability 10 3 4 ∧
    ∃ bf1, BloomFilter.insert sampleHashLib ⟨10, 3, ⟨1023⟩, 4, 0⟩ "HAMLET" = some bf1 ∧
      BloomFilter.prob ⟨10, 3, ⟨1023⟩, 4, 0⟩ ≤ bf1.prob ∧
      (4 < 2 ^ 31 - 1 → bf1.numInserts = ((4 + 1 : Nat) : Int) ∧
        bf1.prob = specProbability 10 3 (4 + 1)) :=
  ⟨by decide,
    (prob_monotone sampleHashLib ⟨10, 3, ⟨1023⟩, 4, 0⟩ "HAMLET" 4 (by decide) (by decide)
      (by decide) (by decide)).2.2.2 (by decide)⟩

/-- C11. Word-list loading. For every sequence of input lines, every minimum length and every
content of the vector before the call, `loadContainer` returns, and the vector it leaves is the
old content followed by the tokens the specification asks for (`specTokens`): in input order,
exactly the upper-cased lines whose length is at least the minimum and whose characters are all
in `A` to `Z`. Line by line: a line that is long enough and made of letters only is appended
upper-cased, every other line leaves the vector as it is. So every produced token has at least
the minimum length and only characters with the codes 65 to 90, and a line that contains a digit,
a white-space character or a punctuation character contributes no token. The last part is a run
on six lines, two of which are kept. -/
theorem loadContainer_tokens (lines data : List String) (minimumWordLength : Nat) :
    loadContainer (some lines) minimumWordLength data
      = some (data ++ specTokens minimumWordLength lines) ∧
    (∀ line : String,
      ((minimumWordLength ≤ line.length ∧ ∀ c ∈ line.toList, c.isAlpha = true) →
        loadContainer (some [line]) minimumWordLength data = some (data ++ [line.toUpper])) ∧
      (¬ (minimumWordLength ≤ line.length ∧ ∀ c ∈ line.toList, c.isAlpha = true) →
        loadContainer (some [line]) minimumWordLength data = some data)) ∧
    (∀ out, loadContainer (some lines) minimumWordLength [] = some out →
      ∀ token ∈ out, minimumWordLength ≤ token.length ∧
        ∀ c ∈ token.toList, 65 ≤ c.toNat ∧ c.toNat ≤ 90) ∧
    (∀ line : String,
      (∃ c ∈ line.toList, c.isDigit = true ∨ c.isWhitespace = true ∨
        (33 ≤ c.toNat ∧ c.toNat ≤ 47) ∨ (58 ≤ c.toNat ∧ c.toNat ≤ 64) ∨
        (91 ≤ c.toNat ∧ c.toNat ≤ 96) ∨ (123 ≤ c.toNat ∧ c.toNat ≤ 126)) →
      loadContainer (some [line]) minimumWordLength data = some data) ∧
    loadContainer (some ["hamlet", "To be", "x1", "OR", "a", "Ghost!"]) 2 ["OLD"]
      = some ["OLD", "HAMLET", "OR"] := by
  have hload : ∀ (ls d : List String), loadContainer (some ls) minimumWordLength d
      = some (d ++ specTokens minimumWordLength ls) := by
    intro ls d
    show some (loadLines minimumWordLength ls d) = _
    rw [loadLines_eq_specTokens]
  have hdrop : ∀ line : String,
      ¬ (minimumWordLength ≤ line.length ∧ ∀ c ∈ line.toList, c.isAlpha = true) →
      loadContainer (some [line]) minimumWordLength data = some data := by
    intro line h
    rw [hload, (specTokens_single minimumWordLength line).2 h, List.append_nil]
  refine ⟨hload lines data, ?_, ?_, ?_, by decide⟩
  · intro line
    refine ⟨?_, hdrop line⟩
    intro h
    rw [hload, (specTokens_single minimumWordLength line).1 h]
  · intro out hout token htoken
    rw [hload, List.nil_append] at hout
    rw [← Option.some.inj hout] at htoken
    unfold specTokens at htoken
    have hk := (List.mem_filter.1 htoken).2
    rw [← keepsLine_eq] at hk
    unfold keepsLine at hk
    rw [Bool.and_eq_true, allUpperLetters_iff, decide_eq_true_eq] at hk
    exact ⟨hk.1, fun c hc => (mem_upperLetters c).1 (hk.2 c hc)⟩
  · rintro line ⟨c, hc, hbad⟩
    apply hdrop
    rintro ⟨_, hall⟩
    have ha := (isAlpha_iff c).1 (hall c hc)
    rcases hbad with hd | hw | hp | hp | hp | hp
    · have hd2 : 48 ≤ c.toNat ∧ c.toNat ≤ 57 := by
        simp only [Char.isDigit, Bool.and_eq_true, decide_eq_true_eq] at hd
        exact hd
      omega
    · simp only [Char.isWhitespace, Bool.or_eq_true, decide_eq_true_eq] at hw
      rcases hw with ((hw | hw) | hw) | hw <;> subst hw <;> revert ha <;> decide
    · omega
    · omega
    · omega
    · omega

/-- Counterexample to C12. In the filter with one bit, which is true, every search finds its
word. For the token sequence that holds the word `A` 2147483648 times the counting loop leaves
`wordCount["A"]` at -2147483648, not at the number of occurrences: the `int` of the entry wraps. -/
theorem countLoop_counterexample :
    ∃ wc, countLoop sampleHashLib ⟨1, 1, ⟨1⟩, 0, 0⟩ (List.replicate 2147483648 "A")
        WordCount.empty = some wc ∧
      wc "A" = some (-2147483648) ∧
      (List.replicate 2147483648 "A").count "A" = 2147483648 := by
  have hs : BloomFilter.search sampleHashLib ⟨1, 1, ⟨1⟩, 0, 0⟩ "A" ≠ some (-1) := by
    rw [search_one_bit sampleHashLib ⟨1, 1, ⟨1⟩, 0, 0⟩ "A" rfl (by decide)]
    intro h
    exact prob_ne_absent ⟨1, 1, ⟨1⟩, 0, 0⟩ (by decide) (Option.some.inj h)
  obtain ⟨wc, hwc, hkeys⟩ := countLoop_spec sampleHashLib ⟨1, 1, ⟨1⟩, 0, 0⟩ (by decide)
    (List.replicate 2147483648 "A") WordCount.empty
  have hmem : "A" ∈ List.replicate 2147483648 "A" := List.mem_replicate.2 ⟨by decide, rfl⟩
  refine ⟨wc, hwc, ?_, List.count_replicate_self _ _⟩
  rw [hkeys "A", if_pos ⟨hmem, hs⟩, List.count_replicate_self]
  decide

/-- C12 as amended. For every filter with `numBits > 0` and every token sequence the counting
loop returns a map. For a token `w` whose search result is not `-1`, `wordCount[w]` is the number
of occurrences of `w` in the sequence, reduced to an `int`; it is exactly the number of
occurrences when that number does not exceed the largest `int`. Every other string has no
entry. -/
theorem countLoop_counts (L : HashLib) (bf : BloomFilter) (tokens : List String)
    (hb : 0 < bf.numBits) :
    ∃ wc, countLoop L bf tokens WordCount.empty = some wc ∧
      ∀ w : String,
        (w ∈ tokens ∧ bf.search L w ≠ some (-1) →
          wc w = some (toInt (tokens.count w)) ∧
          ((tokens.count w : Int) ≤ INT_MAX → wc w = some (tokens.count w : Int))) ∧
        (¬ (w ∈ tokens ∧ bf.search L w ≠ some (-1)) → wc w = none) := by
  obtain ⟨wc, hwc, hkeys⟩ := countLoop_spec L bf hb tokens WordCount.empty
  refine ⟨wc, hwc, ?_⟩
  intro w
  constructor
  · intro hw
    have hval : wc w = some (toInt (tokens.count w)) := by
      rw [hkeys w, if_pos hw]
      simp [WordCount.empty]
    refine ⟨hval, ?_⟩
    intro hle
    rw [hval, toInt_of_range _ _ hle]
    have h0 : (0 : Int) ≤ (tokens.count w : Int) := Int.ofNat_nonneg _
    have hmin : INT_MIN ≤ 0 := by decide
    linarith
  · intro hw
    rw [hkeys w, if_neg hw]
    rfl

/-- Witness of the amended C12: three tokens counted against the filter with 10 bits and 2 hash
functions in which the positions 2 and 9 of the word `TO` are set. -/
theorem countLoop_counts_witness :
    0 < (⟨10, 2, ⟨526⟩, 1, 0⟩ : BloomFilter).numBits ∧
    ∃ wc, countLoop sampleHashLib ⟨10, 2, ⟨526⟩, 1, 0⟩ ["TO", "BE", "TO"] WordCount.empty
        = some wc ∧
      ∀ w : String,
        (w ∈ ["TO", "BE", "TO"] ∧
            BloomFilter.search sampleHashLib ⟨10, 2, ⟨526⟩, 1, 0⟩ w ≠ some (-1) →
          wc w = some (toInt ((["TO", "BE", "TO"] : List String).count w)) ∧
          (((["TO", "BE", "TO"] : List String).count w : Int) ≤ INT_MAX →
            wc w = some ((["TO", "BE", "TO"] : List String).count w : Int))) ∧
        (¬ (w ∈ ["TO", "BE", "TO"] ∧
            BloomFilter.search sampleHashLib ⟨10, 2, ⟨526⟩, 1, 0⟩ w ≠ some (-1)) →
          wc w = none) :=
  ⟨by decide, countLoop_counts sampleHashLib ⟨10, 2, ⟨526⟩, 1, 0⟩ ["TO", "BE", "TO"]
    (by decide)⟩

/-- Counterexample to C19. Run `main` with 10 bits and 1 hash function, the dictionary that holds
the word `A`, and the text that holds `A` 2147483648 times. The word is in the dictionary and
occurs in the text, and it ends with `wordCount["A"] = -2147483648`, not with the number of its
occurrences. -/
theorem main_counts_counterexample :
    ∃ wc, mainWordCount sampleHashLib 10 1 ["A"] (List.replicate 2147483648 "A") = some wc ∧
      wc "A" = some (-2147483648) ∧
      (List.replicate 2147483648 "A").count "A" = 2147483648 := by
  have hins : insertAll sampleHashLib (BloomFilter.new 10 1) ["A"]
      = some ⟨10, 1, ⟨10⟩, 1, 1⟩ := by decide
  obtain ⟨hs, hne, hb⟩ := search_after_insertAll sampleHashLib (BloomFilter.new 10 1)
    ⟨10, 1, ⟨10⟩, 1, 1⟩ ["A"] "A" (by decide) (by decide) hins
  obtain ⟨wc, hwc, hkeys⟩ := countLoop_spec sampleHashLib ⟨10, 1, ⟨10⟩, 1, 1⟩ hb
    (List.replicate 2147483648 "A") WordCount.empty
  have hmem : "A" ∈ List.replicate 2147483648 "A" := List.mem_replicate.2 ⟨by decide, rfl⟩
  have hsne : BloomFilter.search sampleHashLib ⟨10, 1, ⟨10⟩, 1, 1⟩ "A" ≠ some (-1) := by
    rw [hs]; intro h; exact hne (Option.some.inj h)
  have hmf : mainFilter 10 1 = some (BloomFilter.new 10 1) := by decide
  refine ⟨wc, ?_, ?_, List.count_replicate_self _ _⟩
  · unfold mainWordCount
    rw [hmf]
    simp only [hins]
    exact hwc
  · rw [hkeys "A", if_pos ⟨hmem, hsne⟩, List.count_replicate_self]
    decide

/-- C19 as amended. In the pipeline of `main` of `bloom.cpp`, for every pair of `int` options
`numberOfBits > 0` and `numberOfHashFunctions > 0`, every dictionary and every text token vector,
the pipeline returns a map, and every word that is in the dictionary and occurs `n ≥ 1` times in
the token vector ends with `wordCount[word]` equal to `n` reduced to an `int`, which is `n` itself
when `n` does not exceed the largest `int`. -/
theorem main_counts_dictionary_words (L : HashLib) (numberOfBits numberOfHashFunctions : Int)
    (dictionary hamletVector : List String) (word : String)
    (hb : 0 < numberOfBits) (hb2 : numberOfBits ≤ INT_MAX)
    (hh : 0 < numberOfHashFunctions)
    (hw : word ∈ dictionary) (hn : 1 ≤ hamletVector.count word) :
    ∃ wc, mainWordCount L numberOfBits numberOfHashFunctions dictionary hamletVector = some wc ∧
      wc word = some (toInt (hamletVector.count word)) ∧
      ((hamletVector.count word : Int) ≤ INT_MAX →
        wc word = some (hamletVector.count word : Int)) := by
  have e1 : toSizeT numberOfBits = numberOfBits.toNat := by
    unfold toSizeT; unfold INT_MAX at hb2; congr 1; omega
  have hmf : mainFilter numberOfBits numberOfHashFunctions
      = some (BloomFilter.new (toSizeT numberOfBits) (toSizeT numberOfHashFunctions)) := by
    unfold mainFilter positiveNumber
    simp [hb, hh]
  have hpos : 0 < (BloomFilter.new (toSizeT numberOfBits) (toSizeT numberOfHashFunctions)).numBits := by
    show 0 < toSizeT numberOfBits
    rw [e1]; omega
  obtain ⟨bf1, hins, _⟩ := insertAll_spec L dictionary _ hpos
  obtain ⟨hs, hne, hb1⟩ := search_after_insertAll L _ bf1 dictionary word hpos hw hins
  obtain ⟨wc, hwc, hkeys⟩ := countLoop_spec L bf1 hb1 hamletVector WordCount.empty
  have hmem : word ∈ hamletVector := List.count_pos_iff.1 (by omega)
  have hsne : bf1.search L word ≠ some (-1) := by
    rw [hs]; intro h; exact hne (Option.some.inj h)
  have hval : wc word = some (toInt (hamletVector.count word)) := by
    rw [hkeys word, if_pos ⟨hmem, hsne⟩]
    simp [WordCount.empty]
  refine ⟨wc, ?_, hval, ?_⟩
  · unfold mainWordCount
    rw [hmf]
    simp only [hins]
    exact hwc
  · intro hle
    rw [hval, toInt_of_range _ _ hle]
    have h0 : (0 : Int) ≤ (hamletVector.count word : Int) := Int.ofNat_nonneg _
    have hmin : INT_MIN ≤ 0 := by decide
    linarith

/-- Witness of the amended C19: the defaults of `main`, a dictionary of two words and a text of
three tokens. -/
theorem main_counts_dictionary_words_witness :
    ((0 : Int) < 10 ∧ (10 : Int) ≤ INT_MAX ∧ (0 : Int) < 1 ∧
      "TO" ∈ ["BE", "TO"] ∧ 1 ≤ (["TO", "BE", "TO"] : List String).count "TO") ∧
    ∃ wc, mainWordCount sampleHashLib 10 1 ["BE", "TO"] ["TO", "BE", "TO"] = some wc ∧
      wc "TO" = some (toInt ((["TO", "BE", "TO"] : List String).count "TO")) ∧
      (((["TO", "BE", "TO"] : List String).count "TO" : Int) ≤ INT_MAX →
        wc "TO" = some ((["TO", "BE", "TO"] : List String).count "TO" : Int)) :=
  ⟨by decide, main_counts_dictionary_words sampleHashLib 10 1 ["BE", "TO"] ["TO", "BE", "TO"]
    "TO" (by decide) (by decide) (by decide) (by decide) (by decide)⟩

/-- Counterexample to C13. In the one-bit filter with `2 ^ 32` hash functions the bits are the
same after one and after two inserts of a word, but so is `collisions`: each insert runs
`collisions++` `2 ^ 32` times, once around the `int`. -/
theorem insert_twice_counterexample :
    BloomFilter.insert sampleHashLib ⟨1, 2 ^ 32, ⟨1⟩, 0, 0⟩ "A"
      = some ⟨1, 2 ^ 32, ⟨1⟩, 1, 0⟩ ∧
    BloomFilter.insert sampleHashLib ⟨1, 2 ^ 32, ⟨1⟩, 1, 0⟩ "A"
      = some ⟨1, 2 ^ 32, ⟨1⟩, 2, 0⟩ := by
  constructor
  · rw [insert_one_bit sampleHashLib _ "A" rfl (by decide) (by decide) (by decide)]
    decide
  · rw [insert_one_bit sampleHashLib _ "A" rfl (by decide) (by decide) (by decide)]
    decide

/-- C13 as amended. For every filter with `numBits > 0` and members in range and every element
`x`, both inserts of `x` return, the bit set after the second is exactly the bit set after the
first, and `search x` returns the probability, not `-1`, after each. `numInserts` differs between
the two. `collisions` after the second is `collisions` after the first plus `numHashFuncs` in
`int` arithmetic, so it differs whenever `numHashFuncs` is not a multiple of `2 ^ 32`. -/
theorem insert_twice_same_bits (L : HashLib) (bf : BloomFilter) (x : String)
    (hb : 0 < bf.numBits) (hr : bf.InRange) :
    ∃ bf1 bf2, bf.insert L x = some bf1 ∧ bf1.insert L x = some bf2 ∧
      bf2.data = bf1.data ∧
      (bf1.search L x = some bf1.prob ∧ bf1.prob ≠ -1) ∧
      (bf2.search L x = some bf2.prob ∧ bf2.prob ≠ -1) ∧
      bf2.numInserts ≠ bf1.numInserts ∧
      bf2.collisions = toInt (bf1.collisions + bf.numHashFuncs) ∧
      (bf.numHashFuncs % 2 ^ 32 ≠ 0 → bf2.collisions ≠ bf1.collisions) := by
  obtain ⟨_, _, _, _, hc1, hc2⟩ := hr
  obtain ⟨bf1, hins1⟩ := insert_isSome L bf x hb
  obtain ⟨hnb, hnh, hashes, hg, hbits⟩ := insert_spec L bf bf1 x hins1
  have hb1 : 0 < bf1.numBits := by omega
  have hg1 : bf1.getHashes L x = some hashes := by
    rw [getHashes_congr L bf1 bf x hnb hnh]; exact hg
  have hall : ∀ pos ∈ hashes, bf1.data.test pos = true := by
    intro pos hpos
    simp [hbits, hpos]
  obtain ⟨hr1, hr2⟩ := insert_collisions_range L bf bf1 x hins1 hc1 hc2
  have hins2 := insert_all_set L bf1 x hashes hg1 hall hr1 hr2
  have hn1 : bf1.numInserts = toInt (bf.numInserts + 1) :=
    (insert_counters L bf x hashes bf1 hg hins1 hc1 hc2).1
  have hs1 := search_after_insertAll L bf bf1 [x] x hb (List.mem_singleton.2 rfl)
    (by rw [insertAll, hins1]; rfl)
  have hs2 := search_after_insertAll L bf1 _ [x] x hb1 (List.mem_singleton.2 rfl)
    (by rw [insertAll, hins2]; rfl)
  refine ⟨bf1, _, hins1, hins2, rfl, ⟨hs1.1, hs1.2.1⟩, ⟨hs2.1, hs2.2.1⟩, ?_, ?_, ?_⟩
  · show toInt (bf1.numInserts + 1) ≠ bf1.numInserts
    rw [hn1]
    exact toInt_succ_ne _
  · show toInt (bf1.collisions + bf1.numHashFuncs) = _
    rw [hnh]
  · intro hk
    show toInt (bf1.collisions + bf1.numHashFuncs) ≠ bf1.collisions
    rw [hnh]
    exact toInt_add_ne _ _ hk

/-- Witness of the amended C13: a word inserted twice into the filter constructed with 10 bits
and 2 hash functions. -/
theorem insert_twice_same_bits_witness :
    (0 < (BloomFilter.new 10 2).numBits ∧ (BloomFilter.new 10 2).InRange) ∧
    ∃ bf1 bf2, (BloomFilter.new 10 2).insert sampleHashLib "HAMLET" = some bf1 ∧
      bf1.insert sampleHashLib "HAMLET" = some bf2 ∧
      bf2.data = bf1.data ∧
      (bf1.search sampleHashLib "HAMLET" = some bf1.prob ∧ bf1.prob ≠ -1) ∧
      (bf2.search sampleHashLib "HAMLET" = some bf2.prob ∧ bf2.prob ≠ -1) ∧
      bf2.numInserts ≠ bf1.numInserts ∧
      bf2.collisions = toInt (bf1.collisions + (BloomFilter.new 10 2).numHashFuncs) ∧
      ((BloomFilter.new 10 2).numHashFuncs % 2 ^ 32 ≠ 0 → bf2.collisions ≠ bf1.collisions) :=
  ⟨by decide, insert_twice_same_bits sampleHashLib (BloomFilter.new 10 2) "HAMLET" (by decide)
    (by decide)⟩

/-- C15. Order independence of the bit state. For every filter with `numBits > 0` and all
elements `x` and `y`, the inserts of `x` then `y` and of `y` then `x` all return and leave the
same bit set; and for every list of words and every permutation of it, both insert sequences
return and leave the same bit set. -/
theorem insert_order_independent (L : HashLib) (bf : BloomFilter) (x y : String)
    (words1 words2 : List String) (hb : 0 < bf.numBits) (hperm : words1.Perm words2) :
    (∃ bx bxy bY byx, bf.insert L x = some bx ∧ bx.insert L y = some bxy ∧
      bf.insert L y = some bY ∧ bY.insert L x = some byx ∧ bxy.data = byx.data) ∧
    ∃ b1 b2, insertAll L bf words1 = some b1 ∧ insertAll L bf words2 = some b2 ∧
      b1.data = b2.data := by
  have key : ∀ l1 l2 : List String, l1.Perm l2 →
      ∃ b1 b2, insertAll L bf l1 = some b1 ∧ insertAll L bf l2 = some b2 ∧
        b1.data = b2.data := fun l1 l2 hp => insertAll_perm_data L bf l1 l2 hb hp
  refine ⟨?_, key words1 words2 hperm⟩
  obtain ⟨b1, b2, h1, h2, hd⟩ := key [x, y] [y, x] (List.Perm.swap y x [])
  obtain ⟨bx, hx⟩ := insert_isSome L bf x hb
  obtain ⟨bY, hy⟩ := insert_isSome L bf y hb
  obtain ⟨hnbx, _⟩ := insert_spec L bf bx x hx
  obtain ⟨hnby, _⟩ := insert_spec L bf bY y hy
  obtain ⟨bxy, hxy⟩ := insert_isSome L bx y (by omega)
  obtain ⟨byx, hyx⟩ := insert_isSome L bY x (by omega)
  have e1 : insertAll L bf [x, y] = some bxy := by
    rw [insertAll, hx]
    show insertAll L bx [y] = _
    rw [insertAll, hxy]
    rfl
  have e2 : insertAll L bf [y, x] = some byx := by
    rw [insertAll, hy]
    show insertAll L bY [x] = _
    rw [insertAll, hyx]
    rfl
  rw [e1] at h1
  rw [e2] at h2
  have hb1 : bxy = b1 := Option.some.inj h1
  have hb2 : byx = b2 := Option.some.inj h2
  exact ⟨bx, bxy, bY, byx, hx, hxy, hy, hyx, by rw [hb1, hb2]; exact hd⟩

/-- Witness of C15: two words and a list of three words with one of its permutations, inserted
into the filter constructed with 10 bits and 2 hash functions. -/
theorem insert_order_independent_witness :
    (0 < (BloomFilter.new 10 2).numBits ∧
      (["TO", "BE", "OR"] : List String).Perm ["OR", "TO", "BE"]) ∧
    (∃ bx bxy bY byx, (BloomFilter.new 10 2).insert sampleHashLib "TO" = some bx ∧
      bx.insert sampleHashLib "HAMLET" = some bxy ∧
      (BloomFilter.new 10 2).insert sampleHashLib "HAMLET" = some bY ∧
      bY.insert sampleHashLib "TO" = some byx ∧ bxy.data = byx.data) ∧
    ∃ b1 b2, insertAll sampleHashLib (BloomFilter.new 10 2) ["TO", "BE", "OR"] = some b1 ∧
      insertAll sampleHashLib (BloomFilter.new 10 2) ["OR", "TO", "BE"] = some b2 ∧
      b1.data = b2.data :=
  ⟨⟨by decide, by decide⟩,
    insert_order_independent sampleHashLib (BloomFilter.new 10 2) "TO" "HAMLET"
      ["TO", "BE", "OR"] ["OR", "TO", "BE"] (by decide) (by decide)⟩

/-- C16. Read-only query. The member functions are taken as functions on the object
(`Stateful`), which could change every member. For every filter with `numBits > 0` and every
element, the call of `search` returns a result and leaves the object, that is its bit set,
`numBits`, `numHashFuncs`, `numInserts` and `collisions`, as it found it; the call of
`get_collisions` returns the value of `collisions` and leaves the object as it found it; and
after a `search` followed by any sequence of calls without an `insert` the object is still the
same and a second `search` of the element returns the result of the first. -/
theorem query_read_only (L : HashLib) (bf : BloomFilter) (element : String)
    (ops : List Op) (hb : 0 < bf.numBits) (hops : ∀ op ∈ ops, op.isInsert = false) :
    (∃ r bf1, Stateful.search L element bf = some (r, bf1) ∧
      bf1.data = bf.data ∧ bf1.numBits = bf.numBits ∧ bf1.numHashFuncs = bf.numHashFuncs ∧
      bf1.numInserts = bf.numInserts ∧ bf1.collisions = bf.collisions ∧
      ∃ bf2, Stateful.runOps L bf (Op.search element :: ops) = some bf2 ∧ bf2 = bf ∧
        ∃ bf3, Stateful.search L element bf2 = some (r, bf3) ∧ bf3 = bf) ∧
    (Stateful.get_collisions bf).1 = bf.collisions ∧
    (Stateful.get_collisions bf).2.data = bf.data ∧
    (Stateful.get_collisions bf).2.numBits = bf.numBits ∧
    (Stateful.get_collisions bf).2.numHashFuncs = bf.numHashFuncs ∧
    (Stateful.get_collisions bf).2.numInserts = bf.numInserts ∧
    (Stateful.get_collisions bf).2.collisions = bf.collisions := by
  have hsome : ∃ r, bf.search L element = some r := by
    rcases search_cases L bf element hb with hs | hs
    · exact ⟨_, hs⟩
    · exact ⟨_, hs⟩
  obtain ⟨r, hr⟩ := hsome
  have hs : Stateful.search L element bf = some (r, bf) := by
    rw [Stateful.search_frame, hr]
    rfl
  have hrun := Stateful.runOps_frame L bf hb (Op.search element :: ops) (by
    intro op hop
    rcases List.mem_cons.1 hop with e | h
    · rw [e]; rfl
    · exact hops op h)
  exact ⟨⟨r, bf, hs, rfl, rfl, rfl, rfl, rfl, bf, hrun, rfl, bf, hs, rfl⟩,
    rfl, rfl, rfl, rfl, rfl, rfl⟩

/-- Witness of C16: a search, a `get_collisions` and another search on the filter constructed
with 10 bits and 2 hash functions, then the first search again. -/
theorem query_read_only_witness :
    (0 < (BloomFilter.new 10 2).numBits ∧
      ∀ op ∈ [Op.get_collisions, Op.search "TO"], op.isInsert = false) ∧
    ∃ r bf1, Stateful.search sampleHashLib "HAMLET" (BloomFilter.new 10 2) = some (r, bf1) ∧
      bf1.data = (BloomFilter.new 10 2).data ∧ bf1.numBits = (BloomFilter.new 10 2).numBits ∧
      bf1.numHashFuncs = (BloomFilter.new 10 2).numHashFuncs ∧
      bf1.numInserts = (BloomFilter.new 10 2).numInserts ∧
      bf1.collisions = (BloomFilter.new 10 2).collisions ∧
      ∃ bf2, Stateful.runOps sampleHashLib (BloomFilter.new 10 2)
          (Op.search "HAMLET" :: [Op.get_collisions, Op.search "TO"]) = some bf2 ∧
        bf2 = BloomFilter.new 10 2 ∧
        ∃ bf3, Stateful.search sampleHashLib "HAMLET" bf2 = some (r, bf3) ∧
          bf3 = BloomFilter.new 10 2 :=
  ⟨⟨by decide, by decide⟩,
    (query_read_only sampleHashLib (BloomFilter.new 10 2) "HAMLET"
      [Op.get_collisions, Op.search "TO"] (by decide) (by decide)).1⟩

/-- C17. Index safety. For every filter with `numBits > 0` that a `size_t` can hold and every
word, `getHashes` returns exactly `numHashFuncs` positions, each strictly less than `numBits`,
whatever the two library hashes are; `insert` and `search` return, and every position at which
their loops reach into the bit set is less than `numBits` and less than the size of the bit
set. -/
theorem index_safety (L : HashLib) (bf : BloomFilter) (word : String)
    (hb : 0 < bf.numBits) (hsize : bf.numBits < SIZE_T_MOD) :
    ∃ hashes, bf.getHashes L word = some hashes ∧ hashes.length = bf.numHashFuncs ∧
      (∀ pos ∈ hashes, pos < bf.numBits) ∧
      (∃ bf1, bf.insert L word = some bf1) ∧ (∃ r, bf.search L word = some r) ∧
      (∀ pos ∈ insertAccesses hashes, pos < bf.numBits ∧ pos < bf.data.size) ∧
      (∀ pos ∈ searchAccesses bf.data hashes, pos < bf.numBits ∧ pos < bf.data.size) := by
  obtain ⟨hashes, hg⟩ := getHashes_isSome L bf word hb
  have hlt := getHashes_lt L bf word hashes hg
  have hsz : ∀ pos, pos < bf.numBits → pos < bf.data.size := by
    intro pos hpos
    unfold SIZE_T_MOD at hsize
    show pos < 2 ^ 64 - 1
    omega
  refine ⟨hashes, hg, getHashes_length L bf word hashes hg, hlt, insert_isSome L bf word hb,
    ?_, ?_, ?_⟩
  · rcases search_cases L bf word hb with hs | hs
    · exact ⟨_, hs⟩
    · exact ⟨_, hs⟩
  · intro pos hpos
    have := hlt pos ((mem_insertAccesses hashes pos).1 hpos)
    exact ⟨this, hsz pos this⟩
  · intro pos hpos
    have := hlt pos (mem_searchAccesses bf.data hashes pos hpos)
    exact ⟨this, hsz pos this⟩

/-- Witness of C17: a word in the filter constructed with 10 bits and 2 hash functions. -/
theorem index_safety_witness :
    (0 < (BloomFilter.new 10 2).numBits ∧ (BloomFilter.new 10 2).numBits < SIZE_T_MOD) ∧
    ∃ hashes, (BloomFilter.new 10 2).getHashes sampleHashLib "HAMLET" = some hashes ∧
      hashes.length = (BloomFilter.new 10 2).numHashFuncs ∧
      (∀ pos ∈ hashes, pos < (BloomFilter.new 10 2).numBits) ∧
      (∃ bf1, (BloomFilter.new 10 2).insert sampleHashLib "HAMLET" = some bf1) ∧
      (∃ r, (BloomFilter.new 10 2).search sampleHashLib "HAMLET" = some r) ∧
      (∀ pos ∈ insertAccesses hashes,
        pos < (BloomFilter.new 10 2).numBits ∧ pos < (BloomFilter.new 10 2).data.size) ∧
      (∀ pos ∈ searchAccesses (BloomFilter.new 10 2).data hashes,
        pos < (BloomFilter.new 10 2).numBits ∧ pos < (BloomFilter.new 10 2).data.size) :=
  ⟨by decide, index_safety sampleHashLib (BloomFilter.new 10 2) "HAMLET" (by decide)
    (by decide)⟩

/-- C14, evaluated where it fails. In the filter constructed with 10 bits and 1 hash function the
derived position of the word `HAMLET` under the sample hashes is 6, and bit 6 is false: the
`search` of `bloom.cpp` returns `-1`, the `search` of `bloom_sycl.cpp` returns the probability
0. The same happens in every filter with `numBits > 0` and for every element: the offloaded
`search` returns the probability and never `-1`. -/
theorem sycl_search_never_absent :
    (BloomFilter.new 10 1).getHashes sampleHashLib "HAMLET" = some [6] ∧
    (BloomFilter.new 10 1).data.test 6 = false ∧
    (BloomFilter.new 10 1).search sampleHashLib "HAMLET" = some (-1) ∧
    Sycl.search sampleHashLib (BloomFilter.new 10 1) "HAMLET" = some 0 ∧
    ∀ (L : HashLib) (bf : BloomFilter) (element : String), 0 < bf.numBits →
      Sycl.search L bf element = some bf.prob ∧ Sycl.search L bf element ≠ some (-1) := by
  refine ⟨by decide, by decide, ?_, ?_, ?_⟩
  · rw [search_pos sampleHashLib _ "HAMLET" [6] (by decide)]
    have : searchLoop (BloomFilter.new 10 1).data [6] = false := by decide
    rw [this]
    rfl
  · rw [Sycl.search_eq_prob sampleHashLib _ "HAMLET" (by decide)]
    simp [BloomFilter.prob, BloomFilter.new, sizeMul, toSizeT]
  · intro L bf element hb
    have h := Sycl.search_eq_prob L bf element hb
    refine ⟨h, ?_⟩
    rw [h]
    intro he
    exact prob_ne_absent bf hb (Option.some.inj he)

/-- Counterexample to C18. The filter with one bit and 2147483647 hash functions after its first
insert has one true bit and `collisions = 2147483647`. The next insert finds all its positions
true; afterwards there is still one true bit and `collisions = -2`, so the sum of `collisions`
and the number of true bits went from 2147483648 to -1 and did not increase by `numHashFuncs`. -/
theorem collisions_popcount_counterexample :
    BloomFilter.insert sampleHashLib ⟨1, 2147483647, ⟨1⟩, 1, 2147483647⟩ "A"
      = some ⟨1, 2147483647, ⟨1⟩, 2, -2⟩ ∧
    (⟨1⟩ : Bitset).count = 1 ∧
    (-2 : Int) + 1 ≠ 2147483647 + 1 + 2147483647 := by
  refine ⟨?_, by decide, by decide⟩
  rw [insert_one_bit sampleHashLib _ "A" rfl (by decide) (by decide) (by decide)]
  decide

/-- C18 as amended. For every filter with `numBits > 0` and members in range: one insert returns,
and with `a` the number of its positions found true, the true bits increase by
`numHashFuncs - a` and `collisions` by `a` in `int` arithmetic, so the sum of `collisions` and the
number of true bits increases by exactly `numHashFuncs` when `collisions + a` does not exceed the
largest `int`. A sequence of `n` inserts returns and increases the sum by `numHashFuncs * n` when
`collisions + numHashFuncs * n` does not exceed the largest `int`; for a filter whose bits are
all false and whose counters are 0, the sum then is `numHashFuncs * numInserts`, provided `n`
does not exceed the largest `int` either. The value of `collisions` after inserting a list is the
same for every permutation of the list. -/
theorem collisions_popcount (L : HashLib) (bf : BloomFilter) (element : String)
    (words words2 : List String) (hb : 0 < bf.numBits) (hr : bf.InRange)
    (hperm : words.Perm words2) :
    (∃ (bf1 : BloomFilter) (a : Nat), bf.insert L element = some bf1 ∧
      bf1.data.count + a = bf.data.count + bf.numHashFuncs ∧
      bf1.collisions = toInt (bf.collisions + a) ∧
      (bf.collisions + a ≤ INT_MAX →
        bf1.collisions + bf1.data.count
          = bf.collisions + bf.data.count + bf.numHashFuncs)) ∧
    ∃ bfn, insertAll L bf words = some bfn ∧
      (bf.collisions + bf.numHashFuncs * words.length ≤ INT_MAX →
        bfn.collisions + bfn.data.count
          = bf.collisions + bf.data.count + bf.numHashFuncs * words.length) ∧
      ((∀ j, bf.data.test j = false) → bf.collisions = 0 → bf.numInserts = 0 →
        (bf.numHashFuncs * words.length : Int) ≤ INT_MAX → (words.length : Int) ≤ INT_MAX →
        bfn.collisions + bfn.data.count = bf.numHashFuncs * bfn.numInserts) ∧
      ∃ bfn2, insertAll L bf words2 = some bfn2 ∧ bfn2.collisions = bfn.collisions := by
  have hr0 := hr
  obtain ⟨_, _, hn1, hn2, hc1, hc2⟩ := hr
  have hmin : INT_MIN ≤ 0 := by decide
  constructor
  · obtain ⟨bf1, hins⟩ := insert_isSome L bf element hb
    obtain ⟨a, hcount, hcol, _, _⟩ := insert_count L bf bf1 element hins hc1 hc2
    refine ⟨bf1, a, hins, hcount, hcol, ?_⟩
    intro hle
    have h0 : (0 : Int) ≤ (a : Int) := Int.ofNat_nonneg _
    rw [hcol, toInt_of_range _ (by linarith) hle]
    have hcast : ((bf1.data.count : Nat) : Int) + (a : Int)
        = (bf.data.count : Int) + (bf.numHashFuncs : Int) := by exact_mod_cast hcount
    linarith
  · obtain ⟨bfn, a, hall, hcount, hcol, hnum, hale⟩ := insertAll_count L words bf hb hr0
    obtain ⟨bfn2, a2, hall2, hcount2, hcol2, _, _⟩ := insertAll_count L words2 bf hb hr0
    have halecast : (a : Int) ≤ (bf.numHashFuncs : Int) * (words.length : Int) := by
      exact_mod_cast hale
    have h0 : (0 : Int) ≤ (a : Int) := Int.ofNat_nonneg _
    have hcast : ((bfn.data.count : Nat) : Int) + (a : Int)
        = (bf.data.count : Int) + (bf.numHashFuncs : Int) * (words.length : Int) := by
      exact_mod_cast hcount
    have hcnt0 : (0 : Int) ≤ ((bfn.data.count : Nat) : Int) := Int.ofNat_nonneg _
    have hsum : bf.collisions + bf.numHashFuncs * words.length ≤ INT_MAX →
        bfn.collisions + bfn.data.count
          = bf.collisions + bf.data.count + bf.numHashFuncs * words.length := by
      intro hle
      rw [hcol, toInt_of_range _ (by linarith) (by linarith)]
      linarith
    refine ⟨bfn, hall, hsum, ?_, bfn2, hall2, ?_⟩
    · intro hfalse hcz hnz hkn hn
      have hz := Bitset.count_eq_zero bf.data hfalse
      rw [hz] at hcast
      rw [hcz] at hcol
      rw [hnz] at hnum
      have hlen0 : (0 : Int) ≤ (words.length : Int) := Int.ofNat_nonneg _
      have ha : (a : Int) ≤ INT_MAX := by
        push_cast at hcast
        linarith
      rw [hcol, hnum, zero_add, zero_add, toInt_of_range _ (by linarith) ha,
        toInt_of_range _ (by linarith) hn]
      push_cast at hcast
      linarith
    · obtain ⟨b1, b2, e1, e2, hd⟩ := insertAll_perm_data L bf words words2 hb hperm
      rw [hall] at e1
      rw [hall2] at e2
      have hb1 : bfn = b1 := Option.some.inj e1
      have hb2 : bfn2 = b2 := Option.some.inj e2
      have hdata : bfn.data = bfn2.data := by rw [hb1, hb2]; exact hd
      have hlen : words.length = words2.length := hperm.length_eq
      rw [hdata, hlen] at hcount
      have : a = a2 := by omega
      rw [hcol, hcol2, this]

/-- Witness of the amended C18: the filter with 10 bits, all false, and 2 hash functions, one
insert, and a list of three words with one of its permutations. -/
theorem collisions_popcount_witness :
    (0 < (⟨10, 2, ⟨0⟩, 0, 0⟩ : BloomFilter).numBits ∧ (⟨10, 2, ⟨0⟩, 0, 0⟩ : BloomFilter).InRange ∧
      (["TO", "BE", "OR"] : List String).Perm ["OR", "TO", "BE"]) ∧
    (∃ (bf1 : BloomFilter) (a : Nat),
      BloomFilter.insert sampleHashLib ⟨10, 2, ⟨0⟩, 0, 0⟩ "HAMLET" = some bf1 ∧
      bf1.data.count + a
        = (⟨10, 2, ⟨0⟩, 0, 0⟩ : BloomFilter).data.count
          + (⟨10, 2, ⟨0⟩, 0, 0⟩ : BloomFilter).numHashFuncs ∧
      bf1.collisions = toInt ((⟨10, 2, ⟨0⟩, 0, 0⟩ : BloomFilter).collisions + a) ∧
      ((⟨10, 2, ⟨0⟩, 0, 0⟩ : BloomFilter).collisions + a ≤ INT_MAX →
        bf1.collisions + bf1.data.count
          = (⟨10, 2, ⟨0⟩, 0, 0⟩ : BloomFilter).collisions
            + (⟨10, 2, ⟨0⟩, 0, 0⟩ : BloomFilter).data.count
            + (⟨10, 2, ⟨0⟩, 0, 0⟩ : BloomFilter).numHashFuncs)) ∧
    ∃ bfn, insertAll sampleHashLib ⟨10, 2, ⟨0⟩, 0, 0⟩ ["TO", "BE", "OR"] = some bfn ∧
      ((⟨10, 2, ⟨0⟩, 0, 0⟩ : BloomFilter).collisions
          + (⟨10, 2, ⟨0⟩, 0, 0⟩ : BloomFilter).numHashFuncs
            * (["TO", "BE", "OR"] : List String).length ≤ INT_MAX →
        bfn.collisions + bfn.data.count
          = (⟨10, 2, ⟨0⟩, 0, 0⟩ : BloomFilter).collisions
            + (⟨10, 2, ⟨0⟩, 0, 0⟩ : BloomFilter).data.count
            + (⟨10, 2, ⟨0⟩, 0, 0⟩ : BloomFilter).numHashFuncs
              * (["TO", "BE", "OR"] : List String).length) ∧
      ((∀ j, (⟨10, 2, ⟨0⟩, 0, 0⟩ : BloomFilter).data.test j = false) →
        (⟨10, 2, ⟨0⟩, 0, 0⟩ : BloomFilter).collisions = 0 →
        (⟨10, 2, ⟨0⟩, 0, 0⟩ : BloomFilter).numInserts = 0 →
        ((⟨10, 2, ⟨0⟩, 0, 0⟩ : BloomFilter).numHashFuncs
          * (["TO", "BE", "OR"] : List String).length : Int) ≤ INT_MAX →
        ((["TO", "BE", "OR"] : List String).length : Int) ≤ INT_MAX →
        bfn.collisions + bfn.data.count
          = (⟨10, 2, ⟨0⟩, 0, 0⟩ : BloomFilter).numHashFuncs * bfn.numInserts) ∧
      ∃ bfn2, insertAll sampleHashLib ⟨10, 2, ⟨0⟩, 0, 0⟩ ["OR", "TO", "BE"] = some bfn2 ∧
        bfn2.collisions = bfn.collisions :=
  ⟨⟨by decide, by decide, by decide⟩,
    collisions_popcount sampleHashLib ⟨10, 2, ⟨0⟩, 0, 0⟩ "HAMLET" ["TO", "BE", "OR"]
      ["OR", "TO", "BE"] (by decide) (by decide) (by decide)⟩

/-- C20, evaluated where it fails. The text holds two tokens of 32 letters that differ in the
last letter only, each once. `main` pairs both with the count 2 and with the same string, their
shared first 31 letters, and the counts sum to 4 for 2 tokens, where each token occurs once. -/
theorem wc_final_counterexample :
    WcFinal.mainPairs
        ["AAAAAAAAAAAAAAAAAAAAAAAAAAAAAAAB", "AAAAAAAAAAAAAAAAAAAAAAAAAAAAAAAC"]
        ["AAAAAAAAAAAAAAAAAAAAAAAAAAAAAAAB", "AAAAAAAAAAAAAAAAAAAAAAAAAAAAAAAC"]
      = [("AAAAAAAAAAAAAAAAAAAAAAAAAAAAAAA", 2), ("AAAAAAAAAAAAAAAAAAAAAAAAAAAAAAA", 2)] ∧
    (["AAAAAAAAAAAAAAAAAAAAAAAAAAAAAAAB", "AAAAAAAAAAAAAAAAAAAAAAAAAAAAAAAC"] : List String).count
        "AAAAAAAAAAAAAAAAAAAAAAAAAAAAAAAB" = 1 ∧
    ([("AAAAAAAAAAAAAAAAAAAAAAAAAAAAAAA", (2 : Int)),
        ("AAAAAAAAAAAAAAAAAAAAAAAAAAAAAAA", (2 : Int))].map Prod.snd).sum = 4 := by
  decide

/-- What `main` of `wc_final.cpp` computes. For every list of text tokens and every order in
which the set of distinct tokens is run through, `main` pairs each distinct token `w` with the
number of tokens that have the same kept characters as `w` (the first 31, ending before a
`'\0'`), reduced to an `int`, and prints the kept characters of `w` with it. When no two
different tokens have the same kept characters and the number of tokens does not exceed the
largest `int`, the count is the number of occurrences of `w`, and the counts sum to the number of
tokens. A token of at most 31 characters without `'\0'` is kept whole. -/
theorem wc_final_counts (targetWords wordSet : List String) (hnd : wordSet.Nodup)
    (hmem : ∀ w, w ∈ wordSet ↔ w ∈ targetWords) :
    WcFinal.mainPairs targetWords wordSet
      = wordSet.map (fun w => (String.mk (WcFinal.kept w),
          toInt (targetWords.countP
            (fun t => decide (WcFinal.kept w = WcFinal.kept t)) : Nat))) ∧
    ((∀ a ∈ targetWords, ∀ b ∈ targetWords, WcFinal.kept a = WcFinal.kept b → a = b) →
      (targetWords.length : Int) ≤ INT_MAX →
      WcFinal.mainPairs targetWords wordSet
        = wordSet.map (fun w => (String.mk (WcFinal.kept w), (targetWords.count w : Int))) ∧
      ((WcFinal.mainPairs targetWords wordSet).map Prod.snd).sum = targetWords.length) ∧
    (∀ w : String, w.length ≤ 31 → WcFinal.NUL ∉ w.toList → WcFinal.kept w = w.toList) := by
  refine ⟨WcFinal.mainPairs_eq targetWords wordSet, ?_, ?_⟩
  · intro hinj hlen
    have hpairs : WcFinal.mainPairs targetWords wordSet
        = wordSet.map (fun w => (String.mk (WcFinal.kept w), (targetWords.count w : Int))) := by
      rw [WcFinal.mainPairs_eq]
      apply List.map_congr_left
      intro w hw
      have hwt : w ∈ targetWords := (hmem w).1 hw
      have hcount : targetWords.countP (fun t => decide (WcFinal.kept w = WcFinal.kept t))
          = targetWords.count w := by
        rw [List.count_eq_countP]
        apply List.countP_congr
        intro t ht
        constructor
        · intro h
          have hk : WcFinal.kept w = WcFinal.kept t := by simpa using h
          simp [hinj w hwt t ht hk]
        · intro h
          have : t = w := by simpa using h
          simp [this]
      have hle : (targetWords.count w : Int) ≤ targetWords.length := by
        exact_mod_cast List.count_le_length w targetWords
      have h0 : (0 : Int) ≤ (targetWords.count w : Int) := Int.ofNat_nonneg _
      have hmin : INT_MIN ≤ 0 := by decide
      have hfit : toInt (targetWords.count w : Int) = (targetWords.count w : Int) :=
        toInt_of_range _ (by linarith) (by linarith)
      rw [hcount, hfit]
    refine ⟨hpairs, ?_⟩
    rw [hpairs, List.map_map]
    have hperm : wordSet.Perm targetWords.dedup :=
      (List.perm_ext_iff_of_nodup hnd (List.nodup_dedup targetWords)).2
        (fun a => by rw [hmem a, List.mem_dedup])
    have hsum := List.sum_map_count_dedup_eq_length targetWords
    have hnat : (wordSet.map (fun w => targetWords.count w)).sum = targetWords.length := by
      rw [← hsum]
      exact (hperm.map _).sum_eq
    have hcast : (wordSet.map (Prod.snd ∘ fun w =>
        (String.mk (WcFinal.kept w), (targetWords.count w : Int)))).sum
        = (((wordSet.map (fun w => targetWords.count w)).sum : Nat) : Int) := by
      rw [Nat.cast_list_sum, List.map_map]
      rfl
    rw [hcast, hnat]
  · intro w hlen hnul
    unfold WcFinal.kept
    have htw : w.toList.takeWhile (· ≠ WcFinal.NUL) = w.toList := by
      rw [List.takeWhile_eq_self_iff]
      intro c hc
      have : c ≠ WcFinal.NUL := fun e => hnul (e ▸ hc)
      simpa using this
    rw [htw]
    exact List.take_of_length_le hlen

/-- An instance of `wc_final_counts`: three tokens, two of them equal. -/
theorem wc_final_counts_witness :
    ((["BE", "TO"] : List String).Nodup ∧
      ∀ w, w ∈ (["BE", "TO"] : List String) ↔ w ∈ (["TO", "BE", "TO"] : List String)) ∧
    WcFinal.mainPairs ["TO", "BE", "TO"] ["BE", "TO"]
      = (["BE", "TO"] : List String).map (fun w => (String.mk (WcFinal.kept w),
          toInt ((["TO", "BE", "TO"] : List String).countP
            (fun t => decide (WcFinal.kept w = WcFinal.kept t)) : Nat))) ∧
    ((∀ a ∈ (["TO", "BE", "TO"] : List String), ∀ b ∈ (["TO", "BE", "TO"] : List String),
        WcFinal.kept a = WcFinal.kept b → a = b) →
      ((["TO", "BE", "TO"] : List String).length : Int) ≤ INT_MAX →
      WcFinal.mainPairs ["TO", "BE", "TO"] ["BE", "TO"]
        = (["BE", "TO"] : List String).map (fun w => (String.mk (WcFinal.kept w),
            ((["TO", "BE", "TO"] : List String).count w : Int))) ∧
      ((WcFinal.mainPairs ["TO", "BE", "TO"] ["BE", "TO"]).map Prod.snd).sum
        = (["TO", "BE", "TO"] : List String).length) ∧
    (∀ w : String, w.length ≤ 31 → WcFinal.NUL ∉ w.toList → WcFinal.kept w = w.toList) :=
  ⟨⟨by decide, by
      intro w
      simp only [List.mem_cons, List.mem_singleton, List.not_mem_nil, or_false]
      constructor
      · rintro (h | h)
        · right; left; exact h
        · left; exact h
      · rintro (h | h | h)
        · right; exact h
        · left; exact h
        · right; exact h⟩,
    wc_final_counts ["TO", "BE", "TO"] ["BE", "TO"] (by decide) (by
      intro w
      simp only [List.mem_cons, List.mem_singleton, List.not_mem_nil, or_false]
      constructor
      · rintro (h | h)
        · right; left; exact h
        · left; exact h
      · rintro (h | h | h)
        · right; exact h
        · left; exact h
        · right; exact h)⟩

end WordCountBloomFilter
